import Mathlib

/-! The deployd router (`lib/router.js`).

A shallow embedding of `Router.prototype.route`, `Router.prototype.matchResources`,
`Router.prototype.generateRegex` and `specificness`, with the properties of the
routing specification stated over it.

JavaScript strings that are inspected character by character (resource paths, request
urls, regular-expression sources) are lists of Unicode characters. The embedding is
exact for strings whose characters each take one UTF-16 code unit (the Basic
Multilingual Plane without lone surrogates). A character outside that plane is two
code units in JavaScript and one element here, which differs from the source where an
unescaped `*` follows such a character in a resource path (the quantifier binds to
the second code unit only) and in lengths; a lone surrogate has no counterpart here.
-/

namespace Deployd

/-- A JavaScript string as the list of its Unicode characters; one element is one
UTF-16 code unit for every character of the Basic Multilingual Plane, and strings
holding other characters or lone surrogates are outside the embedding. -/
abbrev JSString := List Char

/-! ## Regular expressions

The subset of ECMAScript patterns that `generateRegex` can build, with the
continuation-passing matcher of the language specification. -/

/-- The `WhiteSpace` and `LineTerminator` code units matched by the class escape `\s`. -/
def isWhiteSpace (c : Char) : Bool :=
  let n := c.toNat
  n = 0x09 || n = 0x0A || n = 0x0B || n = 0x0C || n = 0x0D || n = 0x20 || n = 0xA0
    || n = 0x1680 || (0x2000 ≤ n && n ≤ 0x200A) || n = 0x2028 || n = 0x2029
    || n = 0x202F || n = 0x205F || n = 0x3000 || n = 0xFEFF

/-- The `LineTerminator` code units, the ones `.` does not match. -/
def isLineTerminator (c : Char) : Bool :=
  let n := c.toNat
  n = 0x0A || n = 0x0D || n = 0x2028 || n = 0x2029

/-- Membership in the character class of
`escapeRegExp = /[-[\]{}()+?.,\\^$|#\s]/g`. -/
def escapeRegExp (c : Char) : Bool :=
  c = '-' || c = '[' || c = ']' || c = '\x7b' || c = '\x7d' || c = '(' || c = ')'
    || c = '+' || c = '?' || c = '.' || c = ',' || c = '\\' || c = '^' || c = '$'
    || c = '|' || c = '#' || isWhiteSpace c

/-- The call `path.replace(escapeRegExp, '\\$&')`: every code unit of the class is
preceded by a backslash. -/
def escape : JSString → JSString
  | [] => []
  | c :: cs => if escapeRegExp c then '\\' :: c :: escape cs else c :: escape cs

/-- Pattern nodes. A quantifier is only ever applied to a single-character atom. -/
inductive Regex where
  | empty
  | bol
  | eol
  | char (c : Char)
  | cls (cs : List Char)
  | starChar (c : Char)
  | starDot
  | seq (a b : Regex)
  | opt (a : Regex)
  deriving Repr, DecidableEq

/-- Greedy `RepeatMatcher` of a one-character atom `p`: consume while possible, and
fall back to the continuation. -/
def repeatAtom (p : Char → Bool) (k : Nat → JSString → Bool) : Nat → JSString → Bool
  | pos, [] => k pos []
  | pos, x :: s => (p x && repeatAtom p k (pos + 1) s) || k pos (x :: s)

/-- The matcher of a node: `k` is the continuation, `pos` the index of the next code
unit, the list the input from `pos` on. -/
def Regex.run : Regex → (Nat → JSString → Bool) → Nat → JSString → Bool
  | .empty, k, pos, s => k pos s
  | .bol, k, pos, s => pos = 0 && k pos s
  | .eol, k, pos, s => s.isEmpty && k pos s
  | .char c, k, pos, s =>
    match s with
    | [] => false
    | x :: s' => x = c && k (pos + 1) s'
  | .cls cs, k, pos, s =>
    match s with
    | [] => false
    | x :: s' => cs.contains x && k (pos + 1) s'
  | .starChar c, k, pos, s => repeatAtom (fun x => x = c) k pos s
  | .starDot, k, pos, s => repeatAtom (fun x => !isLineTerminator x) k pos s
  | .seq a b, k, pos, s => a.run (b.run k) pos s
  | .opt a, k, pos, s => a.run k pos s || k pos s

/-- An attempt at every start index from `pos` on, as `RegExpBuiltinExec` makes them
for a pattern without the global and sticky flags. -/
def searchFrom (r : Regex) : Nat → JSString → Bool
  | pos, [] => r.run (fun _ _ => true) pos []
  | pos, x :: s => r.run (fun _ _ => true) pos (x :: s) || searchFrom r (pos + 1) s

/-- Truthiness of `url.match(re)`. -/
def jsMatch (url : JSString) (re : Regex) : Bool :=
  searchFrom re 0 url

/-- Tokens of the escaped path: a literal (a pattern character or an identity
escape) or the quantifier `*`. -/
inductive Tok where
  | lit (c : Char)
  | star
  deriving Repr, DecidableEq

/-- Lexing of the escaped path; `escaped` tells that the code unit before was a
backslash, which takes the next code unit as an identity escape (no code unit that
`escape` puts a backslash before is a letter or a digit). A backslash at the end of
the source is left without a result: `escape` produces none. -/
def tokensAux : Bool → JSString → Option (List Tok)
  | escaped, [] => if escaped then none else some []
  | true, c :: rest => (tokensAux false rest).map (Tok.lit c :: ·)
  | false, c :: rest =>
    if c = '\\' then tokensAux true rest
    else if c = '*' then (tokensAux false rest).map (Tok.star :: ·)
    else (tokensAux false rest).map (Tok.lit c :: ·)

/-- Lexing of the escaped path from its first code unit. -/
def tokens (path : JSString) : Option (List Tok) :=
  tokensAux false path

/-- Terms of the token list; `none` is the `SyntaxError` (nothing to repeat) for a
`*` that follows no atom. -/
def terms : List Tok → Option Regex
  | [] => some .empty
  | .star :: _ => none
  | .lit c :: .star :: ts => (terms ts).map (Regex.seq (.starChar c))
  | .lit c :: ts => (terms ts).map (Regex.seq (.char c))

/-- The constructor call `new RegExp('^' + path + '(?:[/?].*)?$')` for an escaped
`path`; `none` when the constructor throws. -/
def newRegExp (path : JSString) : Option Regex :=
  (tokens path).bind fun ts =>
    (terms ts).map fun body =>
      Regex.seq .bol (Regex.seq body
        (Regex.seq (.opt (.seq (.cls ['/', '?']) .starDot)) .eol))

/-- The `if (!path || path === '/') path = ''` of `generateRegex` and `specificness`;
`none` is a missing path. -/
def normalize (path : Option JSString) : JSString :=
  match path with
  | none => []
  | some p => if p = [] ∨ p = ['/'] then [] else p

/-- Embedding of `Router.prototype.generateRegex`. -/
def generateRegex (path : Option JSString) : Option Regex :=
  let path := normalize path
  let path := escape path
  newRegExp path

/-- The call `path.split('/')` for a separator of one code unit. -/
def split (sep : Char) : JSString → List JSString
  | [] => [[]]
  | c :: cs =>
    if c = sep then [] :: split sep cs
    else
      match split sep cs with
      | [] => [[c]]
      | w :: ws => (c :: w) :: ws

/-! ## Resources and the match set -/

/-- A registered resource: `settings.path` (`none` when missing), the `internal` flag,
and `handleSession`: `none` when the resource has no global hook, `some k` for a hook
that calls its release function `k` times before `handleSession` returns (later calls
are events of the run). -/
structure Resource where
  path : Option JSString
  internal : Bool
  handleSession : Option Nat
  deriving Repr, DecidableEq

/-- Embedding of `specificness`. -/
def specificness (resource : Resource) : Nat :=
  let path := normalize resource.path
  (split '/' path).length

/-- The comparator `function(a, b) { return specificness(b) - specificness(a); }`. -/
def compareSpecificness (a b : Resource) : Int :=
  (specificness b : Int) - (specificness a : Int)

/-- The call `Array.prototype.sort(comparefn)`, a stable sort: `a` stays before `b`
when `comparefn(a, b) ≤ 0`. -/
def sortBy (comparefn : Resource → Resource → Int) (l : List Resource) : List Resource :=
  l.insertionSort fun a b => comparefn a b ≤ 0

/-- The `filter` callback of `matchResources` over the list: `none` when
`generateRegex` throws for one of the resources. -/
def filterMatching (url : JSString) : List Resource → Option (List Resource)
  | [] => some []
  | d :: ds =>
    match generateRegex d.path with
    | none => none
    | some re =>
      (filterMatching url ds).map fun rest => if jsMatch url re then d :: rest else rest

/-- Embedding of `Router.prototype.matchResources`. -/
def matchResources (resources : List Resource) (url : JSString) : Option (List Resource) :=
  if resources.length = 0 then some []
  else (filterMatching url resources).map (sortBy compareSpecificness)

/-- Whether `url.match(router.generateRegex(path))` is truthy. -/
def pathMatches (url : JSString) (path : Option JSString) : Bool :=
  match generateRegex path with
  | none => false
  | some re => jsMatch url re

/-! ## The route call -/

/-- The session object; the router reads and writes `isRoot` only. -/
structure Session where
  isRoot : Bool
  deriving Repr, DecidableEq

/-- The request: `req.url`, `req.headers` (`none` when absent) and the session that
contexts of this request expose. -/
structure Request where
  url : JSString
  headers : Option (List (String × String))
  session : Option Session
  deriving Repr, DecidableEq

/-- What the router writes to `res`: `res.statusCode` and the bodies of its
`res.end` calls, oldest first. -/
structure Response where
  statusCode : Nat
  ended : List String
  deriving Repr, DecidableEq

/-- Observable actions of a route call, in the order they happen. -/
inductive Action where
  | hookStart
  | release
  | chainStart
  | deny (idx : Nat)
  | schedule (idx : Nat)
  | handle (idx : Nat) (isRoot : Option Bool)
  | continued (idx : Nat)
  | notFound
  deriving Repr, DecidableEq

/-- The router: `this.resources` and `server.options.env`. -/
structure Router where
  resources : List Resource
  env : String
  deriving Repr, DecidableEq

/-- The variables captured by the closures of one `route` call: the server mode, the
request and `resources`, the match set. -/
structure Call where
  env : String
  req : Request
  resources : List Resource
  deriving Repr, DecidableEq

/-- The mutable variables of one `route` call: `i`, `globals`, the response, the
session object, the callbacks queued with `process.nextTick` (each the index in the
match set of the resource whose `handle` it invokes) and the actions so far. -/
structure State where
  i : Nat
  globals : Int
  res : Response
  session : Option Session
  queue : List Nat
  trace : List Action
  deriving Repr, DecidableEq

/-- Modelled from the spec: the constructor `Context` of `lib/context.js` is not among
the sources. The `session` of a context is the nullable session of the request, one
object shared by reference by all contexts of the request. -/
def contextSession (s : State) : Option Session :=
  s.session

/-- The test `req.headers && key in req.headers`. -/
def hasHeader (req : Request) (key : String) : Bool :=
  match req.headers with
  | none => false
  | some hs => hs.any fun h => h.1 = key

/-- Embedding of the closure `nextResource`. -/
def nextResource (c : Call) (s : State) : State :=
  let idx := s.i
  let s := { s with i := s.i + 1 }
  match c.resources[idx]? with
  | some resource =>
    let s := { s with session := (contextSession s).map fun _ => { isRoot := false } }
    if resource.internal || hasHeader c.req "x-dssh-key" then
      if c.env = "development" then
        let s := { s with session := (contextSession s).map fun _ => { isRoot := true } }
        { s with queue := s.queue ++ [idx], trace := s.trace ++ [.schedule idx] }
      else
        { s with
          res := { statusCode := 401, ended := s.res.ended ++ ["Not Allowed"] }
          trace := s.trace ++ [.deny idx] }
    else
      { s with queue := s.queue ++ [idx], trace := s.trace ++ [.schedule idx] }
  | none =>
    { s with
      res := { statusCode := 404, ended := s.res.ended ++ ["Not Found"] }
      trace := s.trace ++ [.notFound] }

/-- The function returned by `next()`: `globals--; if(!globals) { nextResource() }`. -/
def release (c : Call) (s : State) : State :=
  let s := { s with globals := s.globals - 1, trace := s.trace ++ [.release] }
  if s.globals = 0 then nextResource c { s with trace := s.trace ++ [.chainStart] } else s

/-- Embedding of the closure `next`: `globals++`; the function it returns is
`release`. -/
def next (s : State) : State :=
  { s with globals := s.globals + 1 }

/-- One turn of the `forEach` over `this.resources`, for a resource that has a
`handleSession`: `next()` is evaluated, then `handleSession` runs with the release
function and calls it `k` times before it returns. -/
def startHook (c : Call) (s : State) (resource : Resource) : State :=
  match resource.handleSession with
  | none => s
  | some k =>
    let s := next s
    (release c)^[k] { s with trace := s.trace ++ [.hookStart] }

/-- The state at the entry of `route`. -/
def initialState (req : Request) : State :=
  { i := 0, globals := 0, res := { statusCode := 200, ended := [] },
    session := req.session, queue := [], trace := [] }

/-- Embedding of `Router.prototype.route`, up to its return: the closure variables
and the state it leaves; `none` when `matchResources` throws. -/
def route (router : Router) (req : Request) : Option (Call × State) :=
  (matchResources router.resources req.url).map fun resources =>
    let c : Call := { env := router.env, req := req, resources := resources }
    let s := router.resources.foldl (startHook c) (initialState req)
    (c, if s.globals = 0 then nextResource c { s with trace := s.trace ++ [.chainStart] } else s)

/-- Indices whose `handle` has been invoked, oldest first. -/
def handled (s : State) : List Nat :=
  s.trace.filterMap fun a => match a with
    | .handle idx _ => some idx
    | _ => none

/-- Indices whose handler has called its continuation, one entry per call. -/
def continuations (s : State) : List Nat :=
  s.trace.filterMap fun a => match a with
    | .continued idx => some idx
    | _ => none

/-- What happens after `route` has returned: a hook calls its release function, the
event loop runs the oldest `process.nextTick` callback, or the handler of entry `idx`
calls its continuation. -/
inductive Event where
  | release
  | tick
  | callNext (idx : Nat)
  deriving Repr, DecidableEq

/-- The effect of one event. A release function exists only once a hook has been
started, and a continuation is owned only by a handler that has been invoked; an
event that cannot happen leaves the state as it is. -/
def step (c : Call) (s : State) : Event → State
  | .release => if Action.hookStart ∈ s.trace then release c s else s
  | .tick =>
    match s.queue with
    | [] => s
    | idx :: rest =>
      { s with
        queue := rest
        trace := s.trace ++ [.handle idx ((contextSession s).map fun x => x.isRoot)] }
  | .callNext idx =>
    if idx ∈ handled s then nextResource c { s with trace := s.trace ++ [.continued idx] }
    else s

/-- The state after a sequence of events. -/
def run (c : Call) (s : State) (es : List Event) : State :=
  es.foldl (step c) s

/-- The pattern body of a path read literally, character by character. -/
def lits : JSString → Regex
  | [] => .empty
  | c :: cs => .seq (.char c) (lits cs)

/-- The token of one code unit of the unescaped path. -/
def tokOf (c : Char) : Tok :=
  if c = '*' then Tok.star else Tok.lit c

/-! ## Projections of the trace, the invariant and the scenarios of the properties -/

/-- Scenario A of the specification, registered shallow first. -/
def scenarioA : List Resource :=
  [{ path := some "/foo".toList, internal := false, handleSession := none },
   { path := some "/foo/bar".toList, internal := false, handleSession := none }]

/-- Indices for which `nextResource` has queued the call of `handle`. -/
def scheduled (s : State) : List Nat :=
  s.trace.filterMap fun a => match a with
    | .schedule idx => some idx
    | _ => none

/-- Indices that `nextResource` has taken from the match set. -/
def visited (s : State) : List Nat :=
  s.trace.filterMap fun a => match a with
    | .schedule idx => some idx
    | .deny idx => some idx
    | _ => none

/-- Number of times the barrier, or the check at the end of `route`, has called
`nextResource`. -/
def starts (s : State) : Nat :=
  s.trace.count Action.chainStart

/-- The decision of the gate for entry `idx` of the match set. -/
def denied (c : Call) (idx : Nat) : Bool :=
  match c.resources[idx]? with
  | some resource =>
    (resource.internal || hasHeader c.req "x-dssh-key") && decide (c.env ≠ "development")
  | none => false

/-- What holds of the variables of a route call at every moment. -/
structure Inv (c : Call) (s : State) : Prop where
  visited_eq : visited s = List.range (min s.i c.resources.length)
  queue_eq : handled s ++ s.queue = scheduled s
  count_eq : s.i = starts s + (continuations s).length
  cont_handled : ∀ idx ∈ continuations s, idx ∈ handled s
  sched_allowed : ∀ idx ∈ scheduled s, denied c idx = false
  res_eq : (∀ idx, Action.deny idx ∉ s.trace) →
    s.res = if s.i ≤ c.resources.length then { statusCode := 200, ended := [] }
      else { statusCode := 404, ended := List.replicate (s.i - c.resources.length) "Not Found" }
  deny_body : ∀ idx, Action.deny idx ∈ s.trace → "Not Allowed" ∈ s.res.ended
  bound : ∀ idx, denied c idx = true → starts s ≤ 1 → (continuations s).Nodup →
    s.i ≤ idx + 1

/-- A match set of three with an internal resource in the middle, in production. -/
def chainRouter : Router :=
  { resources :=
      [{ path := some "/a/b/c".toList, internal := false, handleSession := none },
       { path := some "/a/b".toList, internal := true, handleSession := none },
       { path := some "/a".toList, internal := false, handleSession := none }],
    env := "production" }

/-- The request `/a/b/c` without headers and without session. -/
def chainRequest : Request :=
  { url := "/a/b/c".toList, headers := none, session := none }

/-- Two resources with a global hook: the first calls its release function inside
`handleSession`, the second later. -/
def syncThenDeferred : Router :=
  { resources :=
      [{ path := some "/a".toList, internal := false, handleSession := some 1 },
       { path := some "/b".toList, internal := false, handleSession := some 0 }],
    env := "production" }

/-- One resource whose global hook calls its release function inside
`handleSession`. -/
def syncHook : Router :=
  { resources := [{ path := some "/a".toList, internal := false, handleSession := some 1 }],
    env := "production" }

/-- The request `/a` without headers and without session. -/
def requestA : Request :=
  { url := "/a".toList, headers := none, session := none }

/-- The internal resource `/admin` of scenarios C and D. -/
def adminResource : Resource :=
  { path := some "/admin".toList, internal := true, handleSession := none }

/-- The request `/admin/x` without the internal-access header. -/
def adminRequest (session : Option Session) : Request :=
  { url := "/admin/x".toList, headers := none, session := session }

/-- The router of scenarios C and D, in the given mode. -/
def adminRouter (env : String) : Router :=
  { resources := [adminResource], env := env }

/-- The closure variables of `route` in scenarios C and D. -/
def adminCall (env : String) (session : Option Session) : Call :=
  { env := env, req := adminRequest session, resources := [adminResource] }

/-- The state `route` returns in scenario C. -/
def adminDenied : State :=
  { i := 1, globals := 0, res := { statusCode := 401, ended := ["Not Allowed"] },
    session := none, queue := [], trace := [Action.chainStart, Action.deny 0] }

/-- A resource `/foo` that is not internal. -/
def fooResource : Resource :=
  { path := some "/foo".toList, internal := false, handleSession := none }

/-- A route call in `development` mode for `/foo`, with a session that arrives as
root. -/
def fooCall : Call :=
  { env := "development",
    req := { url := "/foo".toList, headers := none, session := some { isRoot := true } },
    resources := [fooResource] }

/-- The request `/foo` in production with the header `x-dssh-key: k`. -/
def keyCall : Call :=
  { env := "production",
    req := { url := "/foo".toList, headers := some [("x-dssh-key", "k")], session := none },
    resources := [fooResource] }

/-- The same request without the header, `/foo` being internal. -/
def internalCall : Call :=
  { env := "production",
    req := { url := "/foo".toList, headers := none, session := none },
    resources := [{ fooResource with internal := true }] }

/-- Scenario B: the only resource is `/`, the request is `/anything`. -/
def rootRouter : Router :=
  { resources := [{ path := some "/".toList, internal := false, handleSession := none }],
    env := "production" }

/-- The request of scenario B. -/
def rootRequest : Request :=
  { url := "/anything".toList, headers := none, session := none }

/-- The closure variables of `route` in scenario B. -/
def rootCall : Call :=
  { env := "production", req := rootRequest,
    resources := [{ path := some "/".toList, internal := false, handleSession := none }] }

/-- The state `route` returns in scenario B. -/
def rootQueued : State :=
  { i := 1, globals := 0, res := { statusCode := 200, ended := [] },
    session := none, queue := [0], trace := [Action.chainStart, Action.schedule 0] }

/-- Two resources of equal specificness, `/` registered before `""`, and a deeper
one registered last. -/
def tiedResources : List Resource :=
  [{ path := some "/".toList, internal := false, handleSession := none },
   { path := some [], internal := false, handleSession := none },
   { path := some "/x".toList, internal := false, handleSession := none }]

/-- The resources `/foo` and `/foo/bar` of scenario A, by name. -/
def fooPath : Resource :=
  { path := some "/foo".toList, internal := false, handleSession := none }

/-- The deeper resource of scenario A. -/
def fooBarPath : Resource :=
  { path := some "/foo/bar".toList, internal := false, handleSession := none }

/-- Further facts that hold of the variables of a route call at every moment: a
handler that has called its continuation is at least two entries behind `i`, a
recorded denial was the decision of the gate, a 404 was written only past the end of
the match set, and `globals` counts the hooks started less the release calls. -/
structure InvWalk (c : Call) (s : State) : Prop where
  base : Inv c s
  cont_lt : ∀ j ∈ continuations s, j + 1 < s.i
  deny_denied : ∀ idx, Action.deny idx ∈ s.trace → denied c idx = true
  notFound_gt : Action.notFound ∈ s.trace → c.resources.length < s.i
  globals_eq : s.globals
    = (s.trace.count Action.hookStart : Int) - (s.trace.count Action.release : Int)

/-- A match set of three resources, none of them internal, in production. -/
def openRouter : Router :=
  { resources :=
      [{ path := some "/a/b/c".toList, internal := false, handleSession := none },
       { path := some "/a/b".toList, internal := false, handleSession := none },
       { path := some "/a".toList, internal := false, handleSession := none }],
    env := "production" }

/-- The closure variables of `route` for `openRouter` and the request `/a/b/c`. -/
def openCall : Call :=
  { env := "production", req := chainRequest, resources := openRouter.resources }

/-- The state `route` returns for `openRouter` and the request `/a/b/c`. -/
def openQueued : State :=
  { i := 1, globals := 0, res := { statusCode := 200, ended := [] },
    session := none, queue := [0], trace := [Action.chainStart, Action.schedule 0] }

/-- One resource whose global hook calls its release function after `route` has
returned. -/
def deferredHook : Router :=
  { resources := [{ path := some "/a".toList, internal := false, handleSession := some 0 }],
    env := "production" }

/-- The closure variables of `route` for `deferredHook` and the request `/a`. -/
def deferredCall : Call :=
  { env := "production", req := requestA, resources := deferredHook.resources }

/-- The state `route` returns for `deferredHook`: the hook is started and the barrier
is closed. -/
def deferredWaiting : State :=
  { i := 0, globals := 1, res := { statusCode := 200, ended := [] },
    session := none, queue := [], trace := [Action.hookStart] }

/-- Whether entry `idx` of the match set requires privilege for this request: the test
of line 68, which is also the value the gate leaves in `isRoot` when it queues the
entry. -/
def privileged (c : Call) (idx : Nat) : Bool :=
  match c.resources[idx]? with
  | some resource => resource.internal || hasHeader c.req "x-dssh-key"
  | none => false

/-- What holds of the session at every moment of a route call in which the chain walk
is started at most once and no handler calls its continuation more than once: a
handler was invoked, and a queued handler will be invoked, with the `isRoot` the gate
has set for it. -/
structure InvRoot (c : Call) (s : State) : Prop where
  walk : InvWalk c s
  handled_root : starts s ≤ 1 → (continuations s).Nodup →
    ∀ idx r, Action.handle idx r ∈ s.trace → r = s.session.map fun _ => privileged c idx
  queued_root : starts s ≤ 1 → (continuations s).Nodup →
    ∀ idx ∈ s.queue,
      s.session.map (fun x => x.isRoot) = s.session.map fun _ => privileged c idx

/-- The request `/a/b/c` with a session that is not root. -/
def sessionRequest : Request :=
  { url := "/a/b/c".toList, headers := none, session := some { isRoot := false } }

/-- The router `chainRouter` in `development` mode. -/
def devChainRouter : Router :=
  { chainRouter with env := "development" }

/-- The closure variables of `route` for `devChainRouter` and `sessionRequest`. -/
def devChainCall : Call :=
  { env := "development", req := sessionRequest, resources := chainRouter.resources }

/-- The state `route` returns for `devChainRouter` and `sessionRequest`. -/
def devChainQueued : State :=
  { i := 1, globals := 0, res := { statusCode := 200, ended := [] },
    session := some { isRoot := false }, queue := [0],
    trace := [Action.chainStart, Action.schedule 0] }

/-- The state `route` returns once the gate has queued the first entry with a root
session. -/
def elevatedQueued : State :=
  { i := 1, globals := 0, res := { statusCode := 200, ended := [] },
    session := some { isRoot := true }, queue := [0],
    trace := [Action.chainStart, Action.schedule 0] }

/-- The request `/foo` with the header `x-dssh-key: k` and a session that is not
root. -/
def keyRequest : Request :=
  { url := "/foo".toList, headers := some [("x-dssh-key", "k")],
    session := some { isRoot := false } }

/-- A router in `development` mode whose only resource, `/foo`, is not internal. -/
def keyDevRouter : Router :=
  { resources := [fooResource], env := "development" }

/-- The closure variables of `route` for `keyDevRouter` and `keyRequest`. -/
def keyDevCall : Call :=
  { env := "development", req := keyRequest, resources := [fooResource] }

/-! ## Facts about the matcher -/

theorem escapeRegExp_star : escapeRegExp '*' = false := by decide

theorem escapeRegExp_backslash : escapeRegExp '\\' = true := by decide

theorem tokens_escape (p : JSString) : tokens (escape p) = some (p.map tokOf) := by
  unfold tokens
  induction p with
  | nil => rfl
  | cons c cs ih =>
    by_cases h : escapeRegExp c = true
    · have hc : c ≠ '*' := by
        rintro rfl
        simp [escapeRegExp_star] at h
      simp [escape, h, tokensAux, ih, tokOf, hc]
    · have hb : c ≠ '\\' := by
        rintro rfl
        exact h escapeRegExp_backslash
      by_cases hs : c = '*'
      · simp [escape, h, tokensAux, ih, tokOf, hb, hs]
      · simp [escape, h, tokensAux, ih, tokOf, hb, hs]

theorem terms_lits (p : JSString) (h : '*' ∉ p) : terms (p.map tokOf) = some (lits p) := by
  induction p with
  | nil => rfl
  | cons c cs ih =>
    have hc : c ≠ '*' := fun e => h (by simp [e])
    have hcs : '*' ∉ cs := fun e => h (List.mem_cons_of_mem _ e)
    have ih := ih hcs
    cases cs with
    | nil => simp [terms, tokOf, hc, lits]
    | cons d ds =>
      have hd : d ≠ '*' := fun e => hcs (by simp [e])
      simp only [List.map_cons, tokOf, hc, hd, if_false] at ih ⊢
      simp [terms, ih, lits]

theorem run_lits (p : JSString) (k : Nat → JSString → Bool) (pos : Nat) (s : JSString) :
    (lits p).run k pos s = true ↔ ∃ rest, s = p ++ rest ∧ k (pos + p.length) rest = true := by
  induction p generalizing pos s with
  | nil => simp [lits, Regex.run]
  | cons c cs ih =>
    cases s with
    | nil => simp [lits, Regex.run]
    | cons x s' =>
      simp only [lits, Regex.run, Bool.and_eq_true, decide_eq_true_eq, ih, List.cons_append,
        List.cons.injEq, List.length_cons]
      constructor
      · rintro ⟨rfl, rest, rfl, hk⟩
        exact ⟨rest, ⟨rfl, rfl⟩, by rwa [Nat.add_assoc, Nat.add_comm 1] at hk⟩
      · rintro ⟨rest, ⟨rfl, rfl⟩, hk⟩
        exact ⟨rfl, rest, rfl, by rwa [Nat.add_assoc, Nat.add_comm 1]⟩

theorem repeatAtom_eol (p : Char → Bool) (pos : Nat) (s : JSString) :
    repeatAtom p (fun _ rest => rest.isEmpty) pos s = true ↔ ∀ x ∈ s, p x = true := by
  induction s generalizing pos with
  | nil => simp [repeatAtom]
  | cons x s' ih => simp [repeatAtom, ih]

/-- The suffix `(?:[/?].*)?$` of every generated pattern. -/
theorem run_suffix (pos : Nat) (rest : JSString) :
    (Regex.seq (.opt (.seq (.cls ['/', '?']) .starDot)) .eol).run (fun _ _ => true) pos rest
        = true ↔
      rest = [] ∨ ∃ c t, rest = c :: t ∧ (c = '/' ∨ c = '?') ∧
        ∀ x ∈ t, isLineTerminator x = false := by
  cases rest with
  | nil => simp [Regex.run]
  | cons x s' =>
    have h := repeatAtom_eol (fun x => !isLineTerminator x) (pos + 1) s'
    simp only [Regex.run, Bool.and_true] at h ⊢
    simp only [h, List.isEmpty_cons, Bool.or_false, Bool.and_eq_true, List.contains_cons,
      List.contains_nil, Bool.or_eq_true, beq_iff_eq, Bool.not_eq_true', false_or, or_false,
      reduceCtorEq, List.cons.injEq]
    constructor
    · rintro ⟨hx, ht⟩
      exact ⟨x, s', ⟨rfl, rfl⟩, hx, ht⟩
    · rintro ⟨c, t, ⟨rfl, rfl⟩, hc, ht⟩
      exact ⟨hc, ht⟩

theorem searchFrom_bol (r : Regex) (pos : Nat) (s : JSString) :
    searchFrom (.seq .bol r) (pos + 1) s = false := by
  induction s generalizing pos with
  | nil => simp [searchFrom, Regex.run]
  | cons x s' ih => simp [searchFrom, Regex.run, ih]

theorem jsMatch_bol (r : Regex) (url : JSString) :
    jsMatch url (.seq .bol r) = r.run (fun _ _ => true) 0 url := by
  cases url with
  | nil => simp [jsMatch, searchFrom, Regex.run]
  | cons x s' => simp [jsMatch, searchFrom, Regex.run, searchFrom_bol]

/-- The pattern of a path without `*`, and what it accepts. -/
theorem generateRegex_literal (path : Option JSString) (h : '*' ∉ normalize path) :
    ∃ re, generateRegex path = some re ∧ ∀ url : JSString,
      (jsMatch url re = true ↔
        url = normalize path ∨ ∃ c t, url = normalize path ++ c :: t ∧ (c = '/' ∨ c = '?') ∧
          ∀ x ∈ t, isLineTerminator x = false) := by
  refine ⟨Regex.seq .bol (Regex.seq (lits (normalize path))
    (Regex.seq (.opt (.seq (.cls ['/', '?']) .starDot)) .eol)),
    by simp [generateRegex, newRegExp, tokens_escape, terms_lits _ h], ?_⟩
  intro url
  rw [jsMatch_bol]
  simp only [Regex.run]
  rw [run_lits]
  constructor
  · rintro ⟨rest, rfl, hk⟩
    have hk := (run_suffix _ _).1 hk
    rcases hk with rfl | ⟨c, t, rfl, hc, ht⟩
    · left; simp
    · right; exact ⟨c, t, rfl, hc, ht⟩
  · rintro (rfl | ⟨c, t, rfl, hc, ht⟩)
    · refine ⟨[], by simp, ?_⟩
      exact (run_suffix (0 + (normalize path).length) []).2 (Or.inl rfl)
    · refine ⟨c :: t, rfl, ?_⟩
      exact (run_suffix (0 + (normalize path).length) (c :: t)).2 (Or.inr ⟨c, t, rfl, hc, ht⟩)

/-! ## The match set -/

theorem mem_filterMatching {url : JSString} {l res : List Resource}
    (h : filterMatching url l = some res) (r : Resource) :
    r ∈ res ↔ r ∈ l ∧ pathMatches url r.path = true := by
  induction l generalizing res with
  | nil =>
    simp only [filterMatching, Option.some.injEq] at h
    subst h
    simp
  | cons d ds ih =>
    simp only [filterMatching] at h
    cases hre : generateRegex d.path with
    | none => simp [hre] at h
    | some re =>
      cases hds : filterMatching url ds with
      | none => simp [hre, hds] at h
      | some rest =>
        simp only [hre, hds, Option.map_some', Option.some.injEq] at h
        have ih := ih hds
        have hd : pathMatches url d.path = jsMatch url re := by simp [pathMatches, hre]
        subst h
        by_cases hm : jsMatch url re = true
        · simp only [hm, if_true, List.mem_cons, ih]
          constructor
          · rintro (rfl | h)
            · exact ⟨Or.inl rfl, by rw [hd, hm]⟩
            · exact ⟨Or.inr h.1, h.2⟩
          · rintro ⟨rfl | h, hp⟩
            · exact Or.inl rfl
            · exact Or.inr ⟨h, hp⟩
        · have hm' : jsMatch url re = false := by simpa using hm
          simp only [hm', Bool.false_eq_true, if_false, List.mem_cons, ih]
          constructor
          · rintro h
            exact ⟨Or.inr h.1, h.2⟩
          · rintro ⟨rfl | h, hp⟩
            · rw [hd] at hp
              exact absurd hp hm
            · exact ⟨h, hp⟩

theorem sortBy_sorted (l : List Resource) :
    (sortBy compareSpecificness l).Sorted fun a b => compareSpecificness a b ≤ 0 := by
  haveI : IsTotal Resource fun a b => compareSpecificness a b ≤ 0 :=
    ⟨fun a b => by simp only [compareSpecificness]; omega⟩
  haveI : IsTrans Resource fun a b => compareSpecificness a b ≤ 0 :=
    ⟨fun a b c => by simp only [compareSpecificness]; omega⟩
  exact List.sorted_insertionSort _ l

theorem mem_sortBy (f : Resource → Resource → Int) (l : List Resource) (r : Resource) :
    r ∈ sortBy f l ↔ r ∈ l :=
  (List.perm_insertionSort _ l).mem_iff

theorem mem_matchResources {resources res : List Resource} {url : JSString}
    (h : matchResources resources url = some res) (r : Resource) :
    r ∈ res ↔ r ∈ resources ∧ pathMatches url r.path = true := by
  unfold matchResources at h
  split at h
  · rename_i h0
    simp only [Option.some.injEq] at h
    subst h
    have : resources = [] := List.length_eq_zero.1 h0
    simp [this]
  · cases hf : filterMatching url resources with
    | none => simp [hf] at h
    | some l =>
      simp only [hf, Option.map_some', Option.some.injEq] at h
      subst h
      rw [mem_sortBy]
      exact mem_filterMatching hf r

theorem matchResources_sorted {resources res : List Resource} {url : JSString}
    (h : matchResources resources url = some res) :
    res.Sorted fun a b => compareSpecificness a b ≤ 0 := by
  unfold matchResources at h
  split at h
  · simp only [Option.some.injEq] at h
    subst h
    exact List.sorted_nil
  · cases hf : filterMatching url resources with
    | none => simp [hf] at h
    | some l =>
      simp only [hf, Option.map_some', Option.some.injEq] at h
      subst h
      exact sortBy_sorted l

theorem filterMatching_isSome (url : JSString) (l : List Resource)
    (h : ∀ r ∈ l, (generateRegex r.path).isSome = true) :
    ∃ res, filterMatching url l = some res := by
  induction l with
  | nil => exact ⟨[], rfl⟩
  | cons d ds ih =>
    obtain ⟨rest, hrest⟩ := ih fun r hr => h r (List.mem_cons_of_mem _ hr)
    obtain ⟨re, hre⟩ := Option.isSome_iff_exists.1 (h d (List.mem_cons_self _ _))
    exact ⟨if jsMatch url re = true then d :: rest else rest,
      by simp only [filterMatching, hre, hrest, Option.map_some']⟩

theorem matchResources_isSome (resources : List Resource) (url : JSString)
    (h : ∀ r ∈ resources, (generateRegex r.path).isSome = true) :
    ∃ res, matchResources resources url = some res := by
  unfold matchResources
  split
  · exact ⟨[], rfl⟩
  · obtain ⟨l, hl⟩ := filterMatching_isSome url resources h
    exact ⟨sortBy compareSpecificness l, by simp only [hl, Option.map_some']⟩

/-- C2. When the pattern of every registered path can be built, `matchResources`
returns a list in which two registered resources that both match the url, and of
which the first has more `/`-delimited segments (as `specificness` counts them), both
occur, every occurrence of the first at a smaller index than every occurrence of the
second; the registration order plays no part. -/
theorem matchResources_deeper_first (resources : List Resource) (url : JSString)
    (r1 r2 : Resource)
    (hc : ∀ r ∈ resources, (generateRegex r.path).isSome = true)
    (h1 : r1 ∈ resources) (h2 : r2 ∈ resources)
    (m1 : pathMatches url r1.path = true) (m2 : pathMatches url r2.path = true)
    (hs : specificness r2 < specificness r1) :
    ∃ res, matchResources resources url = some res ∧ r1 ∈ res ∧ r2 ∈ res ∧
      ∀ i j : Nat, res[i]? = some r1 → res[j]? = some r2 → i < j := by
  obtain ⟨res, h⟩ := matchResources_isSome resources url hc
  refine ⟨res, h, (mem_matchResources h r1).2 ⟨h1, m1⟩,
    (mem_matchResources h r2).2 ⟨h2, m2⟩, ?_⟩
  intro i j hi hj
  obtain ⟨hi', ei⟩ := List.getElem?_eq_some.1 hi
  obtain ⟨hj', ej⟩ := List.getElem?_eq_some.1 hj
  have hsorted := matchResources_sorted h
  by_contra hlt
  rcases Nat.lt_or_eq_of_le (Nat.le_of_not_lt hlt) with hji | hji
  · have := List.pairwise_iff_getElem.1 hsorted j i hj' hi' hji
    rw [ei, ej] at this
    simp only [compareSpecificness] at this
    omega
  · subst hji
    rw [ei] at ej
    subst ej
    omega

/-- C2 at scenario A: `/foo/bar` and `/foo` with the request `/foo/bar/baz`, registered
shallow first, give the match set `[/foo/bar, /foo]`. -/
theorem matchResources_deeper_first_witness :
    matchResources scenarioA "/foo/bar/baz".toList
        = some [{ path := some "/foo/bar".toList, internal := false, handleSession := none },
                { path := some "/foo".toList, internal := false, handleSession := none }] ∧
      ∃ res, matchResources scenarioA "/foo/bar/baz".toList = some res ∧
        { path := some "/foo/bar".toList, internal := false, handleSession := none } ∈ res ∧
        { path := some "/foo".toList, internal := false, handleSession := none } ∈ res ∧
        ∀ i j : Nat,
          res[i]?
            = some { path := some "/foo/bar".toList, internal := false,
                     handleSession := none } →
          res[j]?
            = some { path := some "/foo".toList, internal := false, handleSession := none } →
          i < j :=
  ⟨by decide,
    matchResources_deeper_first scenarioA "/foo/bar/baz".toList
      { path := some "/foo/bar".toList, internal := false, handleSession := none }
      { path := some "/foo".toList, internal := false, handleSession := none }
      (by decide) (by decide) (by decide) (by decide) (by decide) (by decide)⟩

/-! ## The generated pattern -/

/-- C3, as stated, fails in both directions. The url `/a/` followed by a line feed
begins with the path `/a` followed by `/`, and the pattern of `/a` rejects it. The url
`/aaa` is accepted by the pattern of the path `/a*`, and neither equals that path nor
begins with it. -/
theorem pathMatches_counterexample :
    ¬ (pathMatches ['/', 'a', '/', '\n'] (some ['/', 'a']) = true ↔
        (['/', 'a', '/', '\n'] = normalize (some ['/', 'a']) ∨
          ∃ c t, ['/', 'a', '/', '\n'] = normalize (some ['/', 'a']) ++ c :: t ∧
            (c = '/' ∨ c = '?'))) ∧
    ¬ (pathMatches ['/', 'a', 'a', 'a'] (some ['/', 'a', '*']) = true ↔
        (['/', 'a', 'a', 'a'] = normalize (some ['/', 'a', '*']) ∨
          ∃ c t, ['/', 'a', 'a', 'a'] = normalize (some ['/', 'a', '*']) ++ c :: t ∧
            (c = '/' ∨ c = '?'))) := by
  constructor
  · intro h
    have hrej : pathMatches ['/', 'a', '/', '\n'] (some ['/', 'a']) = false := by decide
    rw [hrej] at h
    exact absurd (h.2 (Or.inr ⟨'/', ['\n'], by decide, Or.inl rfl⟩)) (by decide)
  · intro h
    have hacc : pathMatches ['/', 'a', 'a', 'a'] (some ['/', 'a', '*']) = true := by decide
    rcases h.1 hacc with h | ⟨c, t, h, _⟩
    · exact absurd h (by decide)
    · have hn : normalize (some ['/', 'a', '*']) = ['/', 'a', '*'] := by decide
      rw [hn] at h
      simp at h

/-- C3, amended. For a resource path without `*` (after `""`, `"/"` and a missing path
are normalised to the empty prefix) the pattern is built, and it accepts a url exactly
when the url is the path, or begins with the path followed by `/` or `?` and then by
code units none of which is a line terminator. -/
theorem pathMatches_iff (path : Option JSString) (url : JSString)
    (h : '*' ∉ normalize path) :
    (generateRegex path).isSome = true ∧
      (pathMatches url path = true ↔
        url = normalize path ∨ ∃ c t, url = normalize path ++ c :: t ∧ (c = '/' ∨ c = '?') ∧
          ∀ x ∈ t, isLineTerminator x = false) := by
  obtain ⟨re, hre, hm⟩ := generateRegex_literal path h
  refine ⟨by simp [hre], ?_⟩
  rw [← hm url]
  simp [pathMatches, hre]

/-- C3 amended, at the path `/foo` and the url `/foo/bar?x`. -/
theorem pathMatches_iff_witness :
    '*' ∉ normalize (some "/foo".toList) ∧
      (pathMatches "/foo/bar?x".toList (some "/foo".toList) = true ↔
        "/foo/bar?x".toList = normalize (some "/foo".toList) ∨
          ∃ c t, "/foo/bar?x".toList = normalize (some "/foo".toList) ++ c :: t ∧
            (c = '/' ∨ c = '?') ∧ ∀ x ∈ t, isLineTerminator x = false) :=
  ⟨by decide, (pathMatches_iff (some "/foo".toList) "/foo/bar?x".toList (by decide)).2⟩

/-- C10. The code at the path `/a*`: the `*` is left unescaped and read as a
quantifier, so the pattern accepts `/aaa` and `/`, neither of which begins with the
characters of the path, and rejects the path's own characters followed by `/x`. -/
theorem generateRegex_star_unescaped :
    escape "/a*".toList = "/a*".toList ∧
      pathMatches "/aaa".toList (some "/a*".toList) = true ∧
      pathMatches "/".toList (some "/a*".toList) = true ∧
      ¬ ("/a*".toList <+: "/aaa".toList) ∧
      ¬ ("/a*".toList <+: "/".toList) ∧
      pathMatches "/a*/x".toList (some "/a*".toList) = false := by
  refine ⟨by decide, by decide, by decide, by decide, by decide, by decide⟩

/-! ## The gate of `nextResource` -/

/-- C7. A candidate that is not internal, reached by a request that carries the header
`x-dssh-key` with any value, leaves `nextResource` in the same state as the same
candidate with `internal = true` reached by a request without the header: when the
mode is not `development` the response is 401 `Not Allowed` and nothing is queued,
when it is `development` the handler is queued and the session is root. -/
theorem header_gates_as_internal (env : String) (req req' : Request)
    (resources resources' : List Resource) (s : State) (resource : Resource)
    (value : String) (hs : List (String × String))
    (hh : req.headers = some hs) (hk : ("x-dssh-key", value) ∈ hs)
    (hn : hasHeader req' "x-dssh-key" = false)
    (hr : resources[s.i]? = some resource) (hi : resource.internal = false)
    (hr' : resources'[s.i]? = some { resource with internal := true }) :
    nextResource { env := env, req := req, resources := resources } s
        = nextResource { env := env, req := req', resources := resources' } s ∧
      (env ≠ "development" →
        (nextResource { env := env, req := req, resources := resources } s).res
            = { statusCode := 401, ended := s.res.ended ++ ["Not Allowed"] } ∧
          (nextResource { env := env, req := req, resources := resources } s).queue
            = s.queue) ∧
      (env = "development" →
        (nextResource { env := env, req := req, resources := resources } s).res = s.res ∧
          (nextResource { env := env, req := req, resources := resources } s).queue
            = s.queue ++ [s.i] ∧
          (nextResource { env := env, req := req, resources := resources } s).session
            = s.session.map fun _ => { isRoot := true }) := by
  have hhdr : hasHeader req "x-dssh-key" = true := by
    simp only [hasHeader, hh]
    exact List.any_eq_true.2 ⟨_, hk, by simp⟩
  refine ⟨?_, ?_, ?_⟩
  · simp [nextResource, hr, hr', hi, hhdr, hn]
  · intro he
    simp [nextResource, hr, hi, hhdr, he]
  · intro he
    cases hsess : s.session <;> simp [nextResource, hr, hi, hhdr, he, contextSession, hsess]

/-- C7 at a request with the header `x-dssh-key: k` in production mode. -/
theorem header_gates_as_internal_witness :
    nextResource keyCall (initialState keyCall.req)
        = nextResource internalCall (initialState keyCall.req) ∧
      (nextResource keyCall (initialState keyCall.req)).res
        = { statusCode := 401, ended := ["Not Allowed"] } ∧
      (nextResource keyCall (initialState keyCall.req)).queue = [] :=
  have h := header_gates_as_internal "production" keyCall.req internalCall.req
    [fooResource] [{ fooResource with internal := true }] (initialState keyCall.req)
    fooResource "k" [("x-dssh-key", "k")] rfl (by decide) (by decide) (by decide) rfl
    (by decide)
  ⟨h.1, (h.2.1 (by decide)).1, (h.2.1 (by decide)).2⟩

/-- C9. In every mode, at a candidate that is not internal and reached without the
header `x-dssh-key`, `nextResource` writes nothing to the response and records no
denial, queues the call of the candidate's `handle`, and leaves a present session with
`isRoot = false` whatever it was before; when that callback is the next to run,
`handle` is invoked with `isRoot = false`. -/
theorem unprivileged_allowed (c : Call) (s : State) (resource : Resource)
    (hr : c.resources[s.i]? = some resource)
    (hi : resource.internal = false) (hh : hasHeader c.req "x-dssh-key" = false) :
    (nextResource c s).res = s.res ∧
      (nextResource c s).trace = s.trace ++ [Action.schedule s.i] ∧
      (nextResource c s).queue = s.queue ++ [s.i] ∧
      contextSession (nextResource c s) = s.session.map (fun _ => { isRoot := false }) ∧
      (s.queue = [] →
        (step c (nextResource c s) Event.tick).trace
            = s.trace ++ [Action.schedule s.i,
                Action.handle s.i (s.session.map fun _ => false)]) := by
  have hq : (nextResource c s).queue = s.queue ++ [s.i] := by
    simp [nextResource, hr, hi, hh]
  have ht : (nextResource c s).trace = s.trace ++ [Action.schedule s.i] := by
    simp [nextResource, hr, hi, hh]
  have hsess : contextSession (nextResource c s)
      = s.session.map (fun _ => { isRoot := false }) := by
    simp [nextResource, hr, hi, hh, contextSession]
  refine ⟨by simp [nextResource, hr, hi, hh], ht, hq, hsess, ?_⟩
  intro hempty
  rw [hempty] at hq
  simp only [step, hq, List.nil_append, ht, hsess, Option.map_map]
  simp [Function.comp_def]

/-- C9 at a session that arrives as root, in `development` mode. -/
theorem unprivileged_allowed_witness :
    contextSession (nextResource fooCall (initialState fooCall.req))
      = some { isRoot := false } ∧
    (step fooCall (nextResource fooCall (initialState fooCall.req)) Event.tick).trace
      = [Action.schedule 0, Action.handle 0 (some false)] :=
  have h := unprivileged_allowed fooCall (initialState fooCall.req) fooResource
    (by decide) rfl (by decide)
  ⟨h.2.2.2.1, h.2.2.2.2 rfl⟩

/-! ## Invariants of a route call -/

theorem scheduled_lt_of {c : Call} {s : State}
    (h1 : visited s = List.range (min s.i c.resources.length))
    (h2 : handled s ++ s.queue = scheduled s)
    (h5 : ∀ idx ∈ scheduled s, denied c idx = false) {j : Nat}
    (hj : j ∈ handled s ++ s.queue) :
    j < s.i ∧ j < c.resources.length ∧ denied c j = false := by
  rw [h2] at hj
  have hd := h5 j hj
  have hv : j ∈ visited s := by
    simp only [scheduled, visited, List.mem_filterMap] at hj ⊢
    obtain ⟨a, ha, hja⟩ := hj
    refine ⟨a, ha, ?_⟩
    cases a <;> simp_all
  rw [h1, List.mem_range] at hv
  exact ⟨lt_of_lt_of_le hv (Nat.min_le_left _ _), lt_of_lt_of_le hv (Nat.min_le_right _ _), hd⟩

theorem scheduled_lt {c : Call} {s : State} (h : Inv c s) {j : Nat}
    (hj : j ∈ handled s ++ s.queue) :
    j < s.i ∧ j < c.resources.length ∧ denied c j = false :=
  scheduled_lt_of h.visited_eq h.queue_eq h.sched_allowed hj

theorem inv_initial (c : Call) (req : Request) : Inv c (initialState req) := by
  constructor <;>
    simp [initialState, visited, handled, scheduled, starts, continuations]

theorem inv_mark (c : Call) (s : State) (g : Int) (a : Action)
    (ha : a = Action.release ∨ a = Action.hookStart) (h : Inv c s) :
    Inv c { s with globals := g, trace := s.trace ++ [a] } := by
  obtain ⟨h1, h2, h3, h4, h5, h6, h7, h8⟩ := h
  rcases ha with rfl | rfl
  all_goals
    constructor
    · simpa [visited, List.filterMap_append] using h1
    · simpa [handled, scheduled, List.filterMap_append] using h2
    · simpa [starts, continuations, List.filterMap_append, List.count_append] using h3
    · simpa [handled, continuations, List.filterMap_append] using h4
    · simpa [scheduled, List.filterMap_append] using h5
    · intro hd
      have := h6 (fun idx hm => hd idx (by simp [hm]))
      simpa using this
    · intro idx hm
      exact h7 idx (by simpa using hm)
    · simpa [starts, continuations, List.filterMap_append, List.count_append] using h8

theorem inv_tick (c : Call) (s : State) (idx : Nat) (rest : List Nat) (r : Option Bool)
    (hq : s.queue = idx :: rest) (h : Inv c s) :
    Inv c { s with queue := rest, trace := s.trace ++ [Action.handle idx r] } := by
  obtain ⟨h1, h2, h3, h4, h5, h6, h7, h8⟩ := h
  constructor
  · simpa [visited, List.filterMap_append] using h1
  · rw [hq] at h2
    simpa [handled, scheduled, List.filterMap_append] using h2
  · simpa [starts, continuations, List.filterMap_append, List.count_append] using h3
  · intro j hj
    have hj' : j ∈ continuations s := by
      simpa [continuations, List.filterMap_append] using hj
    have := h4 j hj'
    simp only [handled, List.filterMap_append, List.mem_append] at this ⊢
    exact Or.inl this
  · simpa [scheduled, List.filterMap_append] using h5
  · intro hd
    have := h6 (fun j hm => hd j (by simp [hm]))
    simpa using this
  · intro j hm
    exact h7 j (by simpa using hm)
  · simpa [starts, continuations, List.filterMap_append, List.count_append] using h8

/-- The three outcomes of `nextResource`, on the variables the invariant speaks of. -/
theorem nextResource_cases (c : Call) (s : State) :
    (nextResource c s).i = s.i + 1 ∧
      ((c.resources.length ≤ s.i ∧ (nextResource c s).queue = s.queue ∧
          (nextResource c s).trace = s.trace ++ [Action.notFound] ∧
          (nextResource c s).res
            = { statusCode := 404, ended := s.res.ended ++ ["Not Found"] }) ∨
        (s.i < c.resources.length ∧ denied c s.i = true ∧
          (nextResource c s).queue = s.queue ∧
          (nextResource c s).trace = s.trace ++ [Action.deny s.i] ∧
          (nextResource c s).res
            = { statusCode := 401, ended := s.res.ended ++ ["Not Allowed"] }) ∨
        (s.i < c.resources.length ∧ denied c s.i = false ∧
          (nextResource c s).queue = s.queue ++ [s.i] ∧
          (nextResource c s).trace = s.trace ++ [Action.schedule s.i] ∧
          (nextResource c s).res = s.res)) := by
  cases hres : c.resources[s.i]? with
  | none =>
    have hn : c.resources.length ≤ s.i := List.getElem?_eq_none_iff.1 hres
    refine ⟨by simp [nextResource, hres], Or.inl ⟨hn, ?_, ?_, ?_⟩⟩ <;>
      simp [nextResource, hres]
  | some resource =>
    have hn : s.i < c.resources.length := (List.getElem?_eq_some.1 hres).1
    by_cases hp : (resource.internal || hasHeader c.req "x-dssh-key") = true
    · by_cases he : c.env = "development"
      · refine ⟨by simp [nextResource, hres, hp, he], Or.inr (Or.inr ⟨hn, ?_, ?_, ?_, ?_⟩)⟩ <;>
          simp [nextResource, denied, hres, hp, he]
      · refine ⟨by simp [nextResource, hres, hp, he], Or.inr (Or.inl ⟨hn, ?_, ?_, ?_, ?_⟩)⟩ <;>
          simp [nextResource, denied, hres, hp, he]
    · have hp' : (resource.internal || hasHeader c.req "x-dssh-key") = false := by
        simpa using hp
      refine ⟨by simp [nextResource, hres, hp'], Or.inr (Or.inr ⟨hn, ?_, ?_, ?_, ?_⟩)⟩ <;>
        simp [nextResource, denied, hres, hp']

/-- The invariant after a call of `nextResource` that follows the action `a`, a chain
start or the continuation call of a handler that has been invoked. -/
theorem inv_next (c : Call) (s : State) (a : Action)
    (ha : a = Action.chainStart ∨ ∃ idx ∈ handled s, a = Action.continued idx)
    (h : Inv c s) :
    Inv c (nextResource c { s with trace := s.trace ++ [a] }) := by
  have hlt := fun j (hj : j ∈ handled s) =>
    scheduled_lt h (List.mem_append_left s.queue hj)
  obtain ⟨h1, h2, h3, h4, h5, h6, h7, _⟩ := h
  obtain ⟨hi, hcase⟩ := nextResource_cases c { s with trace := s.trace ++ [a] }
  simp only at hi hcase
  simp only [handled] at hlt
  simp only [visited, handled, scheduled, continuations, starts] at h1 h2 h3 h4 h5 ha
  have hcount : (List.count Action.chainStart [a]
      + ([a].filterMap fun a => match a with
          | .continued idx => some idx
          | _ => none).length) = 1 := by
    rcases ha with rfl | ⟨idx, _, rfl⟩ <;> simp
  have hcont : ∀ idx ∈ ([a].filterMap fun a => match a with
      | .continued idx => some idx
      | _ => none), idx ∈ (s.trace.filterMap fun a => match a with
      | .handle idx _ => some idx
      | _ => none) := by
    intro j hj
    rcases ha with rfl | ⟨idx, hidx, rfl⟩
    · simp at hj
    · simp only [List.filterMap_cons, List.filterMap_nil, List.mem_singleton] at hj
      rw [hj]
      exact hidx
  have hvis : ([a].filterMap fun a => match a with
      | .schedule idx => some idx
      | .deny idx => some idx
      | _ => none) = [] := by
    rcases ha with rfl | ⟨idx, _, rfl⟩ <;> simp
  have hsch : ([a].filterMap fun a => match a with
      | .schedule idx => some idx
      | _ => none) = [] := by
    rcases ha with rfl | ⟨idx, _, rfl⟩ <;> simp
  have hhan : ([a].filterMap fun a => match a with
      | .handle idx _ => some idx
      | _ => none) = [] := by
    rcases ha with rfl | ⟨idx, _, rfl⟩ <;> simp
  have hden : ∀ idx, Action.deny idx ∈ s.trace ++ [a] → Action.deny idx ∈ s.trace := by
    intro j hj
    rcases ha with rfl | ⟨idx, _, rfl⟩ <;> simpa using hj
  have hbound : ∀ idx, denied c idx = true →
      List.count Action.chainStart (s.trace ++ [a]) ≤ 1 →
      ((s.trace ++ [a]).filterMap fun a => match a with
        | .continued idx => some idx
        | _ => none).Nodup → s.i + 1 ≤ idx + 1 := by
    intro idx hd hst hnd
    by_contra hgt
    have hidx : idx < s.i := by omega
    have hsub : ((s.trace ++ [a]).filterMap fun a => match a with
        | .continued idx => some idx
        | _ => none) ⊆ (List.range s.i).erase idx := by
      intro j hj
      have hjh : j ∈ (s.trace.filterMap fun a => match a with
          | .handle idx _ => some idx
          | _ => none) := by
        simp only [List.filterMap_append, List.mem_append] at hj
        rcases hj with hj | hj
        · exact h4 j hj
        · exact hcont j hj
      obtain ⟨hji, _, hjd⟩ := hlt j hjh
      have hne : j ≠ idx := by
        rintro rfl
        rw [hd] at hjd
        exact absurd hjd (by decide)
      exact (List.mem_erase_of_ne hne).2 (List.mem_range.2 hji)
    have hlen := (List.subperm_of_subset hnd hsub).length_le
    rw [List.length_erase_of_mem (List.mem_range.2 hidx), List.length_range] at hlen
    simp only [List.filterMap_append, List.count_append, List.length_append] at hst hlen
    omega
  rcases hcase with ⟨hn, hq, ht, hr⟩ | ⟨hn, hd, hq, ht, hr⟩ | ⟨hn, hd, hq, ht, hr⟩
  · constructor
    · simp only [visited, ht, hi, List.filterMap_append, hvis, List.filterMap_cons,
        List.filterMap_nil, List.append_nil, h1]
      congr 1
      omega
    · simp only [handled, scheduled, ht, hq, List.filterMap_append, hhan, hsch,
        List.filterMap_cons, List.filterMap_nil, List.append_nil, h2]
    · have e1 : List.count Action.chainStart [Action.notFound] = 0 := by simp
      have e2 : ([Action.notFound].filterMap fun a => match a with
          | .continued idx => some idx
          | _ => none).length = 0 := by simp
      rw [hi]
      simp only [starts, continuations, ht, List.filterMap_append, List.count_append,
        List.length_append]
      omega
    · intro j hj
      simp only [continuations, handled, ht, List.filterMap_append, hhan, List.filterMap_cons,
        List.filterMap_nil, List.append_nil, List.mem_append] at hj ⊢
      rcases hj with hj | hj
      · exact h4 j hj
      · exact hcont j hj
    · intro j hj
      simp only [scheduled, ht, List.filterMap_append, hsch, List.filterMap_cons,
        List.filterMap_nil, List.append_nil] at hj
      exact h5 j hj
    · intro hnd
      have hold := h6 fun j hj => hnd j (by rw [ht]; simp [hj])
      rw [hr, hi, hold]
      by_cases hle : s.i ≤ c.resources.length
      · have : s.i = c.resources.length := Nat.le_antisymm hle hn
        simp [this]
      · have e : s.i + 1 - c.resources.length = (s.i - c.resources.length) + 1 := by omega
        have hle' : ¬ s.i + 1 ≤ c.resources.length := by omega
        simp only [hle, hle', if_false, e, List.replicate_succ']
    · intro j hj
      rw [hr]
      have hj' : Action.deny j ∈ s.trace := hden j (by rw [ht] at hj; simpa using hj)
      exact List.mem_append_left _ (h7 j hj')
    · intro idx hdi hst hnd
      rw [hi]
      simp only [starts, continuations, ht] at hst hnd
      rw [List.count_append] at hst
      rw [List.filterMap_append] at hnd
      have e1 : List.count Action.chainStart [Action.notFound] = 0 := by simp
      have e2 : ([Action.notFound].filterMap fun a => match a with
          | .continued idx => some idx
          | _ => none) = [] := by simp
      rw [e1] at hst
      rw [e2, List.append_nil] at hnd
      exact hbound idx hdi hst hnd
  · constructor
    · simp only [visited, ht, hi, List.filterMap_append, hvis, List.filterMap_cons,
        List.filterMap_nil, List.append_nil, h1]
      rw [Nat.min_eq_left (Nat.le_of_lt hn), Nat.min_eq_left hn, List.range_succ]
    · simp only [handled, scheduled, ht, hq, List.filterMap_append, hhan, hsch,
        List.filterMap_cons, List.filterMap_nil, List.append_nil, h2]
    · have e1 : List.count Action.chainStart [Action.deny s.i] = 0 := by simp
      have e2 : ([Action.deny s.i].filterMap fun a => match a with
          | .continued idx => some idx
          | _ => none).length = 0 := by simp
      rw [hi]
      simp only [starts, continuations, ht, List.filterMap_append, List.count_append,
        List.length_append]
      omega
    · intro j hj
      simp only [continuations, handled, ht, List.filterMap_append, hhan, List.filterMap_cons,
        List.filterMap_nil, List.append_nil, List.mem_append] at hj ⊢
      rcases hj with hj | hj
      · exact h4 j hj
      · exact hcont j hj
    · intro j hj
      simp only [scheduled, ht, List.filterMap_append, hsch, List.filterMap_cons,
        List.filterMap_nil, List.append_nil] at hj
      exact h5 j hj
    · intro hnd
      exact absurd (by rw [ht]; simp) (hnd s.i)
    · intro j _
      rw [hr]
      simp
    · intro idx hdi hst hnd
      rw [hi]
      simp only [starts, continuations, ht] at hst hnd
      rw [List.count_append] at hst
      rw [List.filterMap_append] at hnd
      have e1 : List.count Action.chainStart [Action.deny s.i] = 0 := by simp
      have e2 : ([Action.deny s.i].filterMap fun a => match a with
          | .continued idx => some idx
          | _ => none) = [] := by simp
      rw [e1] at hst
      rw [e2, List.append_nil] at hnd
      exact hbound idx hdi hst hnd
  · constructor
    · simp only [visited, ht, hi, List.filterMap_append, hvis, List.filterMap_cons,
        List.filterMap_nil, List.append_nil, h1]
      rw [Nat.min_eq_left (Nat.le_of_lt hn), Nat.min_eq_left hn, List.range_succ]
    · simp only [handled, scheduled, ht, hq, List.filterMap_append, hhan, hsch,
        List.filterMap_cons, List.filterMap_nil, List.append_nil]
      rw [← List.append_assoc, h2]
    · have e1 : List.count Action.chainStart [Action.schedule s.i] = 0 := by simp
      have e2 : ([Action.schedule s.i].filterMap fun a => match a with
          | .continued idx => some idx
          | _ => none).length = 0 := by simp
      rw [hi]
      simp only [starts, continuations, ht, List.filterMap_append, List.count_append,
        List.length_append]
      omega
    · intro j hj
      simp only [continuations, handled, ht, List.filterMap_append, hhan, List.filterMap_cons,
        List.filterMap_nil, List.append_nil, List.mem_append] at hj ⊢
      rcases hj with hj | hj
      · exact h4 j hj
      · exact hcont j hj
    · intro j hj
      simp only [scheduled, ht, List.filterMap_append, hsch, List.filterMap_cons,
        List.filterMap_nil, List.append_nil, List.mem_append, List.mem_singleton] at hj
      rcases hj with hj | rfl
      · exact h5 j hj
      · exact hd
    · intro hnd
      have hold := h6 fun j hj => hnd j (by rw [ht]; simp [hj])
      rw [hr, hi]
      simp only at hold ⊢
      rw [hold]
      have hle : s.i ≤ c.resources.length := Nat.le_of_lt hn
      have hle' : s.i + 1 ≤ c.resources.length := hn
      simp [hle, hle']
    · intro j hj
      rw [hr]
      exact h7 j (hden j (by rw [ht] at hj; simpa using hj))
    · intro idx hdi hst hnd
      rw [hi]
      simp only [starts, continuations, ht] at hst hnd
      rw [List.count_append] at hst
      rw [List.filterMap_append] at hnd
      have e1 : List.count Action.chainStart [Action.schedule s.i] = 0 := by simp
      have e2 : ([Action.schedule s.i].filterMap fun a => match a with
          | .continued idx => some idx
          | _ => none) = [] := by simp
      rw [e1] at hst
      rw [e2, List.append_nil] at hnd
      exact hbound idx hdi hst hnd

theorem inv_release (c : Call) (s : State) (h : Inv c s) : Inv c (release c s) := by
  have h1 := inv_mark c s (s.globals - 1) Action.release (Or.inl rfl) h
  unfold release
  simp only
  split
  · exact inv_next c _ Action.chainStart (Or.inl rfl) h1
  · exact h1

theorem inv_iterate_release (c : Call) (k : Nat) (s : State) (h : Inv c s) :
    Inv c ((release c)^[k] s) := by
  induction k generalizing s with
  | zero => exact h
  | succ k ih =>
    rw [Function.iterate_succ_apply]
    exact ih _ (inv_release c s h)

theorem inv_startHook (c : Call) (s : State) (resource : Resource) (h : Inv c s) :
    Inv c (startHook c s resource) := by
  unfold startHook
  cases resource.handleSession with
  | none => exact h
  | some k =>
    exact inv_iterate_release c k _ (inv_mark c s (s.globals + 1) Action.hookStart (Or.inr rfl) h)

theorem inv_foldl_startHook (c : Call) (l : List Resource) (s : State) (h : Inv c s) :
    Inv c (l.foldl (startHook c) s) := by
  induction l generalizing s with
  | nil => exact h
  | cons r rs ih => exact ih _ (inv_startHook c s r h)

/-- What `route` returns: the closure variables it built and a state that satisfies
the invariant. -/
theorem route_spec {router : Router} {req : Request} {c : Call} {s0 : State}
    (h : route router req = some (c, s0)) :
    c.env = router.env ∧ c.req = req ∧
      matchResources router.resources req.url = some c.resources ∧ Inv c s0 := by
  unfold route at h
  cases hm : matchResources router.resources req.url with
  | none => simp [hm] at h
  | some resources =>
    simp only [hm, Option.map_some', Option.some.injEq, Prod.mk.injEq] at h
    obtain ⟨hc, hs⟩ := h
    subst hc
    refine ⟨rfl, rfl, rfl, ?_⟩
    subst hs
    have hf := inv_foldl_startHook { env := router.env, req := req, resources := resources }
      router.resources (initialState req) (inv_initial _ req)
    split
    · exact inv_next _ _ Action.chainStart (Or.inl rfl) hf
    · exact hf

theorem inv_step (c : Call) (s : State) (e : Event) (h : Inv c s) : Inv c (step c s e) := by
  cases e with
  | release =>
    simp only [step]
    split
    · exact inv_release c s h
    · exact h
  | tick =>
    simp only [step]
    split
    · exact h
    · rename_i idx rest hq
      exact inv_tick c s idx rest _ hq h
  | callNext idx =>
    simp only [step]
    split
    · rename_i hidx
      exact inv_next c s (Action.continued idx) (Or.inr ⟨idx, hidx, rfl⟩) h
    · exact h

theorem inv_run (c : Call) (es : List Event) (s : State) (h : Inv c s) :
    Inv c (run c s es) := by
  induction es generalizing s with
  | nil => exact h
  | cons e es ih => exact ih _ (inv_step c s e h)

theorem visited_eq_scheduled (t : List Action) (h : ∀ idx, Action.deny idx ∉ t) :
    (t.filterMap fun a => match a with
      | .schedule idx => some idx
      | .deny idx => some idx
      | _ => none)
    = t.filterMap fun a => match a with
      | .schedule idx => some idx
      | _ => none := by
  induction t with
  | nil => rfl
  | cons a t ih =>
    have ht : ∀ idx, Action.deny idx ∉ t := fun idx hm => h idx (List.mem_cons_of_mem _ hm)
    have ha : ∀ idx, a ≠ Action.deny idx := fun idx e => h idx (by simp [e])
    cases a <;> simp_all [List.filterMap_cons]

/-! ## The chain walk -/

/-- C1, as stated, fails. In production the match set for `/a/b/c` is
`[/a/b/c, /a/b, /a]` with `/a/b` internal; the handler of `/a/b/c` calls its
continuation twice: the first call is answered 401 at `/a/b`, the second call queues
`/a`, whose `handle` is then invoked, after the denial. -/
theorem denial_not_terminal_counterexample :
    (route chainRouter chainRequest).map (fun p => p.1.resources.map fun r => r.internal)
        = some [false, true, false] ∧
      (route chainRouter chainRequest).map (fun p =>
          (run p.1 p.2 [Event.tick, Event.callNext 0, Event.callNext 0, Event.tick]).trace)
        = some [Action.chainStart, Action.schedule 0, Action.handle 0 none,
            Action.continued 0, Action.deny 1, Action.continued 0, Action.schedule 2,
            Action.handle 2 none] := by
  decide

/-- C1, amended. For a route call in a mode other than `development` and an internal
entry `idx` of the match set: the call of `nextResource` that reaches the entry sets
the status 401, ends the response with `Not Allowed`, queues nothing and records the
denial; the entry's `handle` is never queued nor invoked, whatever events follow; once
the walk has reached the entry the denial has been written; as long as
`nextResource` has not been called again after the denial, nothing later in the match
set is queued or invoked; and `nextResource` is not called again when the chain walk is
started at most once and no handler calls its continuation more than once. -/
theorem internal_denied (router : Router) (req : Request) (c : Call) (s0 : State)
    (hroute : route router req = some (c, s0)) (henv : router.env ≠ "development")
    (idx : Nat) (resource : Resource) (hr : c.resources[idx]? = some resource)
    (hint : resource.internal = true) (es : List Event) :
    (∀ s : State, s.i = idx →
        (nextResource c s).res
            = { statusCode := 401, ended := s.res.ended ++ ["Not Allowed"] } ∧
          (nextResource c s).queue = s.queue ∧
          (nextResource c s).trace = s.trace ++ [Action.deny idx]) ∧
      idx ∉ handled (run c s0 es) ∧ idx ∉ (run c s0 es).queue ∧
      (idx < (run c s0 es).i →
        Action.deny idx ∈ (run c s0 es).trace ∧ "Not Allowed" ∈ (run c s0 es).res.ended) ∧
      ((run c s0 es).i ≤ idx + 1 →
        ∀ j ∈ handled (run c s0 es) ++ (run c s0 es).queue, j < idx) ∧
      (starts (run c s0 es) ≤ 1 → (continuations (run c s0 es)).Nodup →
        (run c s0 es).i ≤ idx + 1) := by
  obtain ⟨hcenv, _, _, hinv0⟩ := route_spec hroute
  have hinv := inv_run c es s0 hinv0
  have hlen : idx < c.resources.length := (List.getElem?_eq_some.1 hr).1
  have hden : denied c idx = true := by
    simp [denied, hr, hint, hcenv, henv]
  have hnot : idx ∉ handled (run c s0 es) ++ (run c s0 es).queue := by
    intro hm
    have := (scheduled_lt hinv hm).2.2
    rw [hden] at this
    exact absurd this (by decide)
  refine ⟨?_, fun hm => hnot (List.mem_append_left _ hm),
    fun hm => hnot (List.mem_append_right _ hm), ?_, ?_, hinv.bound idx hden⟩
  · intro s hs
    subst hs
    obtain ⟨_, hcase⟩ := nextResource_cases c s
    rcases hcase with ⟨hn, _⟩ | ⟨_, _, hq, ht, hres⟩ | ⟨_, hd, _⟩
    · omega
    · exact ⟨hres, hq, ht⟩
    · rw [hden] at hd
      exact absurd hd (by decide)
  · intro hlt
    have hv : idx ∈ visited (run c s0 es) := by
      rw [hinv.visited_eq, List.mem_range]
      exact lt_min hlt hlen
    have hd : Action.deny idx ∈ (run c s0 es).trace := by
      simp only [visited, List.mem_filterMap] at hv
      obtain ⟨a, ha, hja⟩ := hv
      cases a with
      | schedule k =>
        simp only [Option.some.injEq] at hja
        subst hja
        have hs : k ∈ scheduled (run c s0 es) := by
          simp only [scheduled, List.mem_filterMap]
          exact ⟨_, ha, rfl⟩
        have := hinv.sched_allowed k hs
        rw [hden] at this
        exact absurd this (by decide)
      | deny k =>
        simp only [Option.some.injEq] at hja
        subst hja
        exact ha
      | hookStart => simp at hja
      | release => simp at hja
      | chainStart => simp at hja
      | handle k r => simp at hja
      | continued k => simp at hja
      | notFound => simp at hja
    exact ⟨hd, hinv.deny_body idx hd⟩
  · intro hle j hj
    obtain ⟨hji, _, hjd⟩ := scheduled_lt hinv hj
    have hne : j ≠ idx := by
      rintro rfl
      rw [hden] at hjd
      exact absurd hjd (by decide)
    omega

/-- C1 amended, at scenario C: `/admin` is internal, the mode is production and the
request is `/admin/x`; `route` returns with the 401 written, and whatever the events
after it, here a tick, a continuation call and a release, the handler is not invoked. -/
theorem internal_denied_witness :
    route (adminRouter "production") (adminRequest none)
        = some (adminCall "production" none, adminDenied) ∧
      0 ∉ handled (run (adminCall "production" none) adminDenied
        [Event.tick, Event.callNext 0, Event.release]) ∧
      "Not Allowed" ∈ (run (adminCall "production" none) adminDenied
        [Event.tick, Event.callNext 0, Event.release]).res.ended ∧
      (run (adminCall "production" none) adminDenied
        [Event.tick, Event.callNext 0, Event.release]).i ≤ 0 + 1 :=
  have h := internal_denied (adminRouter "production") (adminRequest none)
    (adminCall "production" none) adminDenied (by decide) (by decide) 0 adminResource
    (by decide) rfl [Event.tick, Event.callNext 0, Event.release]
  ⟨by decide, h.2.1, (h.2.2.2.1 (by decide)).2, h.2.2.2.2.2 (by decide) (by decide)⟩

/-- C5. When the barrier or the final check of `route` has started the chain walk
exactly once, the gate has denied no candidate, every queued callback has run and
every handler that was invoked has called its continuation exactly once, then every
entry of the match set has been handled in order, and the router has set the status
404 and ended the response once, with `Not Found`. -/
theorem chain_exhaustion_404 (router : Router) (req : Request) (c : Call) (s0 : State)
    (hroute : route router req = some (c, s0)) (es : List Event)
    (hstart : starts (run c s0 es) = 1)
    (hdeny : ∀ idx, Action.deny idx ∉ (run c s0 es).trace)
    (hqueue : (run c s0 es).queue = [])
    (honce : ∀ idx ∈ handled (run c s0 es), (continuations (run c s0 es)).count idx = 1) :
    (run c s0 es).res = { statusCode := 404, ended := ["Not Found"] } ∧
      handled (run c s0 es) = List.range c.resources.length ∧
      (run c s0 es).i = c.resources.length + 1 := by
  obtain ⟨_, _, _, hinv0⟩ := route_spec hroute
  have hinv := inv_run c es s0 hinv0
  have hh : handled (run c s0 es)
      = List.range (min (run c s0 es).i c.resources.length) := by
    have h2 := hinv.queue_eq
    rw [hqueue, List.append_nil] at h2
    rw [h2, ← hinv.visited_eq]
    exact (visited_eq_scheduled _ hdeny).symm
  have hnd : (handled (run c s0 es)).Nodup := by
    rw [hh]
    exact List.nodup_range _
  have hperm : (continuations (run c s0 es)).Perm (handled (run c s0 es)) := by
    rw [List.perm_iff_count]
    intro a
    by_cases ha : a ∈ handled (run c s0 es)
    · rw [honce a ha, List.count_eq_one_of_mem hnd ha]
    · have ha' : a ∉ continuations (run c s0 es) := fun hm => ha (hinv.cont_handled a hm)
      rw [List.count_eq_zero_of_not_mem ha, List.count_eq_zero_of_not_mem ha']
  have hlen : (continuations (run c s0 es)).length
      = min (run c s0 es).i c.resources.length := by
    rw [hperm.length_eq, hh, List.length_range]
  have hcount := hinv.count_eq
  rw [hstart, hlen] at hcount
  have hi : (run c s0 es).i = c.resources.length + 1 := by omega
  have hres := hinv.res_eq hdeny
  rw [hi] at hres hh
  refine ⟨?_, ?_, hi⟩
  · rw [hres]
    simp
  · rw [hh]
    simp

theorem rootQueued_trace :
    (run rootCall rootQueued [Event.tick, Event.callNext 0]).trace
      = [Action.chainStart, Action.schedule 0, Action.handle 0 none, Action.continued 0,
          Action.notFound] := by
  decide

/-- C5 at scenario B: the only resource is `/`, the request is `/anything`, the handler
is invoked and calls its continuation. -/
theorem chain_exhaustion_404_witness :
    route rootRouter rootRequest = some (rootCall, rootQueued) ∧
      (run rootCall rootQueued [Event.tick, Event.callNext 0]).res
        = { statusCode := 404, ended := ["Not Found"] } :=
  ⟨by decide,
    (chain_exhaustion_404 rootRouter rootRequest rootCall rootQueued (by decide)
      [Event.tick, Event.callNext 0] (by decide)
      (fun idx hm => by
        rw [rootQueued_trace] at hm
        simp at hm)
      (by decide) (by decide)).1⟩

/-! ## The barrier -/

/-- C4. The code at two hooks of which the first releases synchronously: `route`
starts the chain walk after one hook start and one release, before the second hook is
started, and returns with `globals = 1`; after the handler of `/a` has been invoked,
the release of the second hook starts the walk a second time, which answers 404. -/
theorem barrier_opens_early :
    (route syncThenDeferred requestA).map (fun p => (p.2.trace, p.2.globals))
        = some ([Action.hookStart, Action.release, Action.chainStart, Action.schedule 0,
            Action.hookStart], 1) ∧
      (route syncThenDeferred requestA).map (fun p =>
          ((run p.1 p.2 [Event.tick, Event.release]).trace,
            (run p.1 p.2 [Event.tick, Event.release]).res))
        = some ([Action.hookStart, Action.release, Action.chainStart, Action.schedule 0,
            Action.hookStart, Action.handle 0 none, Action.release, Action.chainStart,
            Action.notFound],
            { statusCode := 404, ended := ["Not Found"] }) := by
  decide

/-- C6. The code at one hook that releases synchronously, once: the release starts the
chain walk inside the `forEach`, and the check at the end of `route` finds
`globals = 0` and starts it again, so `nextResource` is called from the barrier twice:
`/a` is queued and the response is ended with 404. -/
theorem barrier_starts_twice :
    (route syncHook requestA).map (fun p => (p.2.trace, starts p.2, p.2.res, p.2.queue))
      = some ([Action.hookStart, Action.release, Action.chainStart, Action.schedule 0,
          Action.chainStart, Action.notFound], 2,
          { statusCode := 404, ended := ["Not Found"] }, [0]) := by
  decide

/-! ## Specificness and the shape of the match set -/

theorem split_length (sep : Char) (p : JSString) :
    (split sep p).length = p.count sep + 1 := by
  induction p with
  | nil => rfl
  | cons c cs ih =>
    by_cases h : c = sep
    · subst h
      simp [split, ih]
    · have hne : (c == sep) = false := by simpa using h
      cases hsp : split sep cs with
      | nil => simp [hsp] at ih
      | cons w ws =>
        rw [hsp] at ih
        simp only [split, h, if_false, hsp, List.length_cons, List.count_cons, hne] at ih ⊢
        simpa using ih

theorem specificness_eq_count (resource : Resource) :
    specificness resource = (normalize resource.path).count '/' + 1 := by
  simp only [specificness, split_length]

/-- C15. `specificness` is the number of pieces `split('/')` cuts the normalised path
into, which is one plus the number of `/` in the normalised path; for the paths `""`
and `"/"` and for a missing path it is 1. -/
theorem specificness_eq_segments (resource : Resource) :
    specificness resource = (split '/' (normalize resource.path)).length ∧
      specificness resource = (normalize resource.path).count '/' + 1 ∧
      (∀ (internal : Bool) (hook : Option Nat),
        specificness { path := some [], internal := internal, handleSession := hook } = 1 ∧
        specificness { path := some ['/'], internal := internal, handleSession := hook } = 1 ∧
        specificness { path := none, internal := internal, handleSession := hook } = 1) := by
  refine ⟨rfl, specificness_eq_count resource, ?_⟩
  intro internal hook
  refine ⟨?_, ?_, ?_⟩ <;> simp [specificness_eq_count, normalize]

theorem filterMatching_eq_filter (url : JSString) (l : List Resource)
    (h : ∀ r ∈ l, (generateRegex r.path).isSome = true) :
    filterMatching url l = some (l.filter fun r => pathMatches url r.path) := by
  induction l with
  | nil => rfl
  | cons d ds ih =>
    have ih := ih fun r hr => h r (List.mem_cons_of_mem _ hr)
    obtain ⟨re, hre⟩ := Option.isSome_iff_exists.1 (h d (List.mem_cons_self _ _))
    have hd : pathMatches url d.path = jsMatch url re := by simp [pathMatches, hre]
    simp only [filterMatching, hre, ih, Option.map_some', List.filter_cons, hd]

theorem matchResources_eq_sort_filter (resources : List Resource) (url : JSString)
    (h : ∀ r ∈ resources, (generateRegex r.path).isSome = true) :
    matchResources resources url
      = some (sortBy compareSpecificness
          (resources.filter fun r => pathMatches url r.path)) := by
  unfold matchResources
  split
  · rename_i h0
    have : resources = [] := List.length_eq_zero.1 h0
    subst this
    rfl
  · rw [filterMatching_eq_filter url resources h]
    rfl

/-- C16. When the pattern of every registered path can be built, `matchResources`
returns a permutation of the registered resources whose path matches the url: every
resource occurs in it as often as it is registered when its path matches and not at
all otherwise; without registered resources the result is the empty list. -/
theorem matchResources_perm_filter (resources : List Resource) (url : JSString)
    (hc : ∀ r ∈ resources, (generateRegex r.path).isSome = true) :
    ∃ res, matchResources resources url = some res ∧
      res.Perm (resources.filter fun r => pathMatches url r.path) ∧
      (∀ r, res.count r = if pathMatches url r.path = true then resources.count r else 0) ∧
      matchResources [] url = some [] := by
  refine ⟨_, matchResources_eq_sort_filter resources url hc, List.perm_insertionSort _ _, ?_,
    rfl⟩
  intro r
  have hp : (sortBy compareSpecificness
      (resources.filter fun r => pathMatches url r.path)).Perm
      (resources.filter fun r => pathMatches url r.path) := List.perm_insertionSort _ _
  rw [hp.count_eq]
  by_cases hm : pathMatches url r.path = true
  · rw [if_pos hm]
    exact List.count_filter (by simpa using hm)
  · rw [if_neg hm]
    exact List.count_eq_zero_of_not_mem fun hmem => hm (by simpa using (List.mem_filter.1 hmem).2)

/-- C16 at scenario A and the request `/foo/bar/baz`. -/
theorem matchResources_perm_filter_witness :
    ∃ res, matchResources scenarioA "/foo/bar/baz".toList = some res ∧
      res.Perm (scenarioA.filter fun r => pathMatches "/foo/bar/baz".toList r.path) ∧
      (∀ r, res.count r
        = if pathMatches "/foo/bar/baz".toList r.path = true then scenarioA.count r else 0) ∧
      matchResources [] "/foo/bar/baz".toList = some [] :=
  matchResources_perm_filter scenarioA "/foo/bar/baz".toList (by decide)

theorem sortBy_stable_filter (l : List Resource) (k : Nat) :
    (sortBy compareSpecificness l).filter (fun r => specificness r = k)
      = l.filter fun r => specificness r = k := by
  have hpair : (l.filter fun r => specificness r = k).Pairwise
      fun a b => compareSpecificness a b ≤ 0 := by
    apply List.pairwise_of_forall_mem_list
    intro a ha b hb
    have ha' : specificness a = k := by simpa using (List.mem_filter.1 ha).2
    have hb' : specificness b = k := by simpa using (List.mem_filter.1 hb).2
    simp only [compareSpecificness, ha', hb']
    omega
  have hsub : List.Sublist (l.filter fun r => specificness r = k)
      (sortBy compareSpecificness l) :=
    List.sublist_insertionSort hpair (List.filter_sublist l)
  have hsub' := hsub.filter fun r => specificness r = k
  rw [List.filter_filter] at hsub'
  simp only [Bool.and_self] at hsub'
  have hperm : (sortBy compareSpecificness l).Perm l := List.perm_insertionSort _ l
  have hlen := (hperm.filter fun r => decide (specificness r = k)).length_eq
  exact (hsub'.eq_of_length hlen.symm).symm

/-- C12. When the pattern of every registered path can be built, the resources of one
specificness stand in the result of `matchResources` exactly as they stand among the
matching registered resources, and two matching resources of equal specificness of
which one is registered before the other come in that order in the result. -/
theorem matchResources_stable (resources : List Resource) (url : JSString)
    (hc : ∀ r ∈ resources, (generateRegex r.path).isSome = true) :
    ∃ res, matchResources resources url = some res ∧
      (∀ k : Nat, res.filter (fun r => specificness r = k)
        = (resources.filter fun r => pathMatches url r.path).filter
            fun r => specificness r = k) ∧
      (∀ a b : Resource, specificness a = specificness b → List.Sublist [a, b] resources →
        pathMatches url a.path = true → pathMatches url b.path = true →
        List.Sublist [a, b] res) := by
  refine ⟨_, matchResources_eq_sort_filter resources url hc,
    fun k => sortBy_stable_filter _ k, ?_⟩
  intro a b hab hsub ma mb
  have hf := hsub.filter fun r => pathMatches url r.path
  simp only [List.filter_cons, ma, mb, if_true, List.filter_nil] at hf
  exact List.pair_sublist_insertionSort
    (by simp only [compareSpecificness, hab]; omega) hf

/-- C12 at the request `/x/y` with `/` registered before `""`: the two keep their
order, behind the deeper `/x`. -/
theorem matchResources_stable_witness :
    matchResources tiedResources "/x/y".toList
        = some [{ path := some "/x".toList, internal := false, handleSession := none },
                { path := some "/".toList, internal := false, handleSession := none },
                { path := some [], internal := false, handleSession := none }] ∧
      ∃ res, matchResources tiedResources "/x/y".toList = some res ∧
        List.Sublist
          [{ path := some "/".toList, internal := false, handleSession := none },
            ({ path := some [], internal := false, handleSession := none } : Resource)]
          res :=
  have h := matchResources_stable tiedResources "/x/y".toList (by decide)
  ⟨by decide, h.choose, h.choose_spec.1,
    h.choose_spec.2.2 _ _ (by decide) (by decide) (by decide) (by decide)⟩

theorem before_of_specificness {resources res : List Resource} {url : JSString}
    (h : matchResources resources url = some res) {r1 r2 : Resource}
    (hs : specificness r2 < specificness r1) (i j : Nat)
    (hi : res[i]? = some r1) (hj : res[j]? = some r2) : i < j := by
  obtain ⟨hi', ei⟩ := List.getElem?_eq_some.1 hi
  obtain ⟨hj', ej⟩ := List.getElem?_eq_some.1 hj
  have hsorted := matchResources_sorted h
  by_contra hlt
  rcases Nat.lt_or_eq_of_le (Nat.le_of_not_lt hlt) with hji | hji
  · have := List.pairwise_iff_getElem.1 hsorted j i hj' hi' hji
    rw [ei, ej] at this
    simp only [compareSpecificness] at this
    omega
  · subst hji
    rw [ei] at ej
    subst ej
    omega

/-! ## The root paths -/

/-- C11, as stated, fails: the url `foo` is rejected by the pattern of `""` and by the
pattern of `"/"`, and the match set of a router whose only resource is `/` is empty
for it. -/
theorem root_path_counterexample :
    pathMatches "foo".toList (some []) = false ∧
      pathMatches "foo".toList (some ['/']) = false ∧
      matchResources rootRouter.resources "foo".toList = some [] := by
  decide

/-- C11, amended. A resource whose path is `""` or `"/"` matches a url exactly when
the url is empty, or begins with `/` or `?` and has no line terminator after that
first character; and exactly then it is in the result of `matchResources`. -/
theorem root_path_matches (resources : List Resource) (url : JSString) (r : Resource)
    (hc : ∀ d ∈ resources, (generateRegex d.path).isSome = true)
    (hr : r ∈ resources) (hp : r.path = some [] ∨ r.path = some ['/']) :
    (pathMatches url r.path = true ↔
        url = [] ∨ ∃ c t, url = c :: t ∧ (c = '/' ∨ c = '?') ∧
          ∀ x ∈ t, isLineTerminator x = false) ∧
      ∃ res, matchResources resources url = some res ∧
        (r ∈ res ↔
          url = [] ∨ ∃ c t, url = c :: t ∧ (c = '/' ∨ c = '?') ∧
            ∀ x ∈ t, isLineTerminator x = false) := by
  have hn : normalize r.path = [] := by
    rcases hp with h | h <;> simp [h, normalize]
  obtain ⟨re, hre, hm⟩ := generateRegex_literal r.path (by simp [hn])
  have hiff : pathMatches url r.path = true ↔
      url = [] ∨ ∃ c t, url = c :: t ∧ (c = '/' ∨ c = '?') ∧
        ∀ x ∈ t, isLineTerminator x = false := by
    have := hm url
    rw [hn] at this
    simpa [pathMatches, hre] using this
  refine ⟨hiff, ?_⟩
  obtain ⟨res, hres⟩ := matchResources_isSome resources url hc
  refine ⟨res, hres, ?_⟩
  rw [mem_matchResources hres r, ← hiff]
  exact ⟨fun h => h.2, fun h => ⟨hr, h⟩⟩

/-- C11 amended, at scenario B: the resource `/` and the request `/anything`. -/
theorem root_path_matches_witness :
    pathMatches "/anything".toList (some ['/']) = true ∧
      ∃ res, matchResources rootRouter.resources "/anything".toList = some res ∧
        { path := some ['/'], internal := false, handleSession := none } ∈ res :=
  have h := root_path_matches rootRouter.resources "/anything".toList
    { path := some ['/'], internal := false, handleSession := none }
    (by decide) (by decide) (Or.inr rfl)
  ⟨by decide, h.2.choose, h.2.choose_spec.1,
    h.2.choose_spec.2.2 (Or.inr ⟨'/', "anything".toList, by decide, Or.inl rfl, by decide⟩)⟩

/-! ## Nested paths -/

theorem pathMatches_literal {path : Option JSString} (url : JSString)
    (h : '*' ∉ normalize path) :
    pathMatches url path = true ↔
      url = normalize path ∨ ∃ c t, url = normalize path ++ c :: t ∧ (c = '/' ∨ c = '?') ∧
        ∀ x ∈ t, isLineTerminator x = false := by
  obtain ⟨re, hre, hm⟩ := generateRegex_literal path h
  rw [← hm url]
  simp [pathMatches, hre]

theorem pathMatches_prefix {path : Option JSString} {url : JSString}
    (h : '*' ∉ normalize path) (m : pathMatches url path = true) :
    normalize path <+: url := by
  rcases (pathMatches_literal url h).1 m with rfl | ⟨c, t, rfl, _⟩
  · exact List.prefix_refl _
  · exact List.prefix_append _ _

theorem normalize_some (p : JSString) :
    normalize (some p) = if p = [] ∨ p = ['/'] then [] else p :=
  rfl

theorem pathMatches_congr {p1 p2 : Option JSString} (url : JSString)
    (h : normalize p1 = normalize p2) : pathMatches url p1 = pathMatches url p2 := by
  simp only [pathMatches, generateRegex, h]

/-- C19. Two resource paths whose normalised forms contain neither `*` nor `?`,
differ, and both match the url have normalised forms of different lengths; the longer
is the shorter followed by `/` and the characters after it, if any; the longer has the
greater specificness; and in the result of `matchResources` the resource with the
longer path comes first. -/
theorem matching_paths_nested (resources : List Resource) (url : JSString)
    (r1 r2 : Resource)
    (hc : ∀ r ∈ resources, (generateRegex r.path).isSome = true)
    (h1 : r1 ∈ resources) (h2 : r2 ∈ resources)
    (hs1 : '*' ∉ normalize r1.path) (hq1 : '?' ∉ normalize r1.path)
    (hs2 : '*' ∉ normalize r2.path) (hq2 : '?' ∉ normalize r2.path)
    (hne : normalize r1.path ≠ normalize r2.path)
    (m1 : pathMatches url r1.path = true) (m2 : pathMatches url r2.path = true) :
    (normalize r1.path).length ≠ (normalize r2.path).length ∧
      ((normalize r1.path).length < (normalize r2.path).length →
        (∃ u, normalize r2.path = normalize r1.path ++ '/' :: u) ∧
          specificness r1 < specificness r2 ∧
          ∃ res, matchResources resources url = some res ∧ r1 ∈ res ∧ r2 ∈ res ∧
            ∀ i j : Nat, res[i]? = some r2 → res[j]? = some r1 → i < j) := by
  have _ := hq1
  have p1 := pathMatches_prefix hs1 m1
  have p2 := pathMatches_prefix hs2 m2
  constructor
  · intro hlen
    exact hne ((List.prefix_of_prefix_length_le p1 p2 (Nat.le_of_eq hlen)).eq_of_length hlen)
  · intro hlt
    obtain ⟨w, hw⟩ := List.prefix_of_prefix_length_le p1 p2 (Nat.le_of_lt hlt)
    have hnested : ∃ u, normalize r2.path = normalize r1.path ++ '/' :: u := by
      rcases (pathMatches_literal url hs1).1 m1 with hu | ⟨c, t, hu, hcq, _⟩
      · have := p2.length_le
        rw [hu] at this
        omega
      · rw [hu, ← hw, List.prefix_append_right_inj, List.prefix_cons_iff] at p2
        rcases p2 with hnil | ⟨t', ht', _⟩
        · rw [hnil, List.append_nil] at hw
          rw [hw] at hlt
          omega
        · rcases hcq with rfl | rfl
          · exact ⟨t', by rw [← hw, ht']⟩
          · exact absurd (by rw [← hw, ht']; simp) hq2
    obtain ⟨u, hu⟩ := hnested
    have hspec : specificness r1 < specificness r2 := by
      rw [specificness_eq_count, specificness_eq_count, hu]
      simp only [List.count_append, List.count_cons_self]
      omega
    obtain ⟨res, hres⟩ := matchResources_isSome resources url hc
    exact ⟨⟨u, hu⟩, hspec, res, hres, (mem_matchResources hres r1).2 ⟨h1, m1⟩,
      (mem_matchResources hres r2).2 ⟨h2, m2⟩,
      fun i j hi hj => before_of_specificness hres hspec i j hi hj⟩

/-- C19 at scenario A: `/foo` and `/foo/bar` both match `/foo/bar/baz`, and the longer
comes first although it is registered last. -/
theorem matching_paths_nested_witness :
    (∃ u, normalize fooBarPath.path = normalize fooPath.path ++ '/' :: u) ∧
      specificness fooPath < specificness fooBarPath ∧
      ∃ res, matchResources [fooPath, fooBarPath] "/foo/bar/baz".toList = some res ∧
        fooPath ∈ res ∧ fooBarPath ∈ res ∧
        ∀ i j : Nat, res[i]? = some fooBarPath → res[j]? = some fooPath → i < j :=
  (matching_paths_nested [fooPath, fooBarPath] "/foo/bar/baz".toList fooPath fooBarPath
    (by decide) (by decide) (by decide) (by decide) (by decide) (by decide) (by decide)
    (by decide) (by decide) (by decide)).2 (by decide)

/-- C20. When the path of one resource is the normalised path of another followed by
`/` and the characters `u`, and contains no `*` and no line terminator, every url that
the pattern of the longer path accepts is accepted by the pattern of the shorter one;
so the shorter one is in the match set whenever the longer one is, and behind it
unless the longer path is `/` itself, which normalises to the same root. -/
theorem ancestor_matches (resources : List Resource) (url : JSString)
    (r1 r2 : Resource) (u : JSString)
    (hc : ∀ r ∈ resources, (generateRegex r.path).isSome = true)
    (h1 : r1 ∈ resources) (h2 : r2 ∈ resources)
    (hp2 : r2.path = some (normalize r1.path ++ '/' :: u))
    (hs : '*' ∉ normalize r1.path ++ '/' :: u)
    (hl : ∀ x ∈ normalize r1.path ++ '/' :: u, isLineTerminator x = false)
    (m2 : pathMatches url r2.path = true) :
    pathMatches url r1.path = true ∧
      specificness r1 ≤ specificness r2 ∧
      ((normalize r1.path ≠ [] ∨ u ≠ []) → specificness r1 < specificness r2) ∧
      ∃ res, matchResources resources url = some res ∧ r2 ∈ res ∧ r1 ∈ res ∧
        ((normalize r1.path ≠ [] ∨ u ≠ []) →
          ∀ i j : Nat, res[i]? = some r2 → res[j]? = some r1 → i < j) := by
  have hs1 : '*' ∉ normalize r1.path := fun hm => hs (List.mem_append_left _ hm)
  have hcases : (normalize r1.path = [] ∧ u = []) ∨ (normalize r1.path ≠ [] ∨ u ≠ []) := by
    by_cases ha : normalize r1.path = []
    · by_cases hb : u = []
      · exact Or.inl ⟨ha, hb⟩
      · exact Or.inr (Or.inr hb)
    · exact Or.inr (Or.inl ha)
  have hmain : pathMatches url r1.path = true ∧ specificness r1 ≤ specificness r2 ∧
      ((normalize r1.path ≠ [] ∨ u ≠ []) → specificness r1 < specificness r2) := by
    rcases hcases with ⟨ha, hb⟩ | hnz
    · have hn2 : normalize r2.path = normalize r1.path := by
        rw [hp2, ha, hb]
        simp [normalize]
      refine ⟨by rw [← pathMatches_congr url hn2]; exact m2, ?_, ?_⟩
      · rw [specificness_eq_count, specificness_eq_count, hn2]
      · intro h
        rcases h with h | h
        · exact absurd ha h
        · exact absurd hb h
    · have hn2 : normalize r2.path = normalize r1.path ++ '/' :: u := by
        rw [hp2, normalize_some, if_neg]
        rintro (h | h)
        · simp at h
        · rcases hnz with hz | hz
          · cases hn : normalize r1.path with
            | nil => exact hz hn
            | cons a t =>
              rw [hn] at h
              simp at h
          · cases hn : normalize r1.path with
            | nil =>
              rw [hn] at h
              simp at h
              exact hz h
            | cons a t =>
              rw [hn] at h
              simp at h
      have hspec : specificness r1 < specificness r2 := by
        rw [specificness_eq_count, specificness_eq_count, hn2]
        simp only [List.count_append, List.count_cons_self]
        omega
      refine ⟨?_, Nat.le_of_lt hspec, fun _ => hspec⟩
      have hs2 : '*' ∉ normalize r2.path := by rw [hn2]; exact hs
      rw [pathMatches_literal url hs1]
      right
      have hlu : ∀ x ∈ u, isLineTerminator x = false := fun x hx =>
        hl x (List.mem_append_right _ (List.mem_cons_of_mem _ hx))
      rcases (pathMatches_literal url hs2).1 m2 with hu | ⟨c, t, hu, hcq, ht⟩
      · exact ⟨'/', u, by rw [hu, hn2], Or.inl rfl, hlu⟩
      · refine ⟨'/', u ++ c :: t, by rw [hu, hn2]; simp, Or.inl rfl, ?_⟩
        intro x hx
        rcases List.mem_append.1 hx with hx | hx
        · exact hlu x hx
        · rcases List.mem_cons.1 hx with rfl | hx
          · rcases hcq with rfl | rfl <;> decide
          · exact ht x hx
  obtain ⟨res, hres⟩ := matchResources_isSome resources url hc
  exact ⟨hmain.1, hmain.2.1, hmain.2.2, res, hres, (mem_matchResources hres r2).2 ⟨h2, m2⟩,
    (mem_matchResources hres r1).2 ⟨h1, hmain.1⟩,
    fun hnz i j hi hj => before_of_specificness hres (hmain.2.2 hnz) i j hi hj⟩

/-- C20 at scenario A: `/foo/bar` is `/foo` followed by `/bar`; the request
`/foo/bar/baz`, which matches `/foo/bar`, matches `/foo`, and `/foo` comes behind. -/
theorem ancestor_matches_witness :
    pathMatches "/foo/bar/baz".toList fooPath.path = true ∧
      specificness fooPath < specificness fooBarPath ∧
      ∃ res, matchResources [fooPath, fooBarPath] "/foo/bar/baz".toList = some res ∧
        fooBarPath ∈ res ∧ fooPath ∈ res ∧
        ∀ i j : Nat, res[i]? = some fooBarPath → res[j]? = some fooPath → i < j :=
  have h := ancestor_matches [fooPath, fooBarPath] "/foo/bar/baz".toList fooPath fooBarPath
    "bar".toList (by decide) (by decide) (by decide) (by decide) (by decide) (by decide)
    (by decide)
  ⟨h.1, h.2.2.1 (Or.inl (by decide)), h.2.2.2.choose, h.2.2.2.choose_spec.1,
    h.2.2.2.choose_spec.2.1, h.2.2.2.choose_spec.2.2.1,
    h.2.2.2.choose_spec.2.2.2 (Or.inl (by decide))⟩

/-! ## More invariants of a route call -/

theorem nextResource_globals (c : Call) (s : State) :
    (nextResource c s).globals = s.globals := by
  cases hres : c.resources[s.i]? with
  | none => simp [nextResource, hres]
  | some resource =>
    by_cases hp : (resource.internal || hasHeader c.req "x-dssh-key") = true
    · by_cases he : c.env = "development" <;> simp [nextResource, hres, hp, he]
    · have hp' : (resource.internal || hasHeader c.req "x-dssh-key") = false := by
        simpa using hp
      simp [nextResource, hres, hp']

/-- The action that a call of `nextResource` appends to the trace. -/
theorem nextResource_trace (c : Call) (s : State) :
    ∃ x, (nextResource c s).trace = s.trace ++ [x] ∧
      ((x = Action.notFound ∧ c.resources.length ≤ s.i) ∨
        (x = Action.deny s.i ∧ denied c s.i = true) ∨ x = Action.schedule s.i) := by
  obtain ⟨_, hcase⟩ := nextResource_cases c s
  rcases hcase with ⟨hn, _, ht, _⟩ | ⟨_, hd, _, ht, _⟩ | ⟨_, _, _, ht, _⟩
  · exact ⟨_, ht, Or.inl ⟨rfl, hn⟩⟩
  · exact ⟨_, ht, Or.inr (Or.inl ⟨rfl, hd⟩)⟩
  · exact ⟨_, ht, Or.inr (Or.inr rfl)⟩

theorem walk_initial (c : Call) (req : Request) : InvWalk c (initialState req) := by
  refine ⟨inv_initial c req, ?_, ?_, ?_, ?_⟩ <;>
    simp [initialState, continuations]

theorem walk_mark_release (c : Call) (s : State) (h : InvWalk c s) :
    InvWalk c { s with globals := s.globals - 1, trace := s.trace ++ [Action.release] } := by
  obtain ⟨hb, h1, h2, h3, h4⟩ := h
  refine ⟨inv_mark c s _ Action.release (Or.inl rfl) hb, ?_, ?_, ?_, ?_⟩
  · simpa [continuations, List.filterMap_append] using h1
  · intro idx hm
    exact h2 idx (by simpa using hm)
  · intro hm
    exact h3 (by simpa using hm)
  · simp only [List.count_append, List.count_singleton_self, h4]
    simp
    omega

theorem walk_mark_hook (c : Call) (s : State) (h : InvWalk c s) :
    InvWalk c { s with globals := s.globals + 1, trace := s.trace ++ [Action.hookStart] } := by
  obtain ⟨hb, h1, h2, h3, h4⟩ := h
  refine ⟨inv_mark c s _ Action.hookStart (Or.inr rfl) hb, ?_, ?_, ?_, ?_⟩
  · simpa [continuations, List.filterMap_append] using h1
  · intro idx hm
    exact h2 idx (by simpa using hm)
  · intro hm
    exact h3 (by simpa using hm)
  · simp only [List.count_append, List.count_singleton_self, h4]
    simp
    omega

theorem walk_tick (c : Call) (s : State) (idx : Nat) (rest : List Nat) (r : Option Bool)
    (hq : s.queue = idx :: rest) (h : InvWalk c s) :
    InvWalk c { s with queue := rest, trace := s.trace ++ [Action.handle idx r] } := by
  obtain ⟨hb, h1, h2, h3, h4⟩ := h
  refine ⟨inv_tick c s idx rest r hq hb, ?_, ?_, ?_, ?_⟩
  · simpa [continuations, List.filterMap_append] using h1
  · intro j hm
    exact h2 j (by simpa using hm)
  · intro hm
    exact h3 (by simpa using hm)
  · simp only [List.count_append, h4]
    simp

theorem walk_next (c : Call) (s : State) (a : Action)
    (ha : a = Action.chainStart ∨ ∃ idx ∈ handled s, a = Action.continued idx)
    (h : InvWalk c s) :
    InvWalk c (nextResource c { s with trace := s.trace ++ [a] }) := by
  obtain ⟨hb, h1, h2, h3, h4⟩ := h
  obtain ⟨hi, _⟩ := nextResource_cases c { s with trace := s.trace ++ [a] }
  obtain ⟨x, ht, hx⟩ := nextResource_trace c { s with trace := s.trace ++ [a] }
  have hg := nextResource_globals c { s with trace := s.trace ++ [a] }
  simp only at hi ht hx hg
  refine ⟨inv_next c s a ha hb, ?_, ?_, ?_, ?_⟩
  · intro j hj
    rw [hi]
    simp only [continuations, ht, List.filterMap_append, List.mem_append] at hj
    rcases hj with (hj | hj) | hj
    · exact Nat.lt_succ_of_lt (h1 j hj)
    · rcases ha with rfl | ⟨idx, hidx, rfl⟩
      · simp at hj
      · simp only [List.filterMap_cons, List.filterMap_nil, List.mem_singleton] at hj
        subst hj
        have := (scheduled_lt hb (List.mem_append_left s.queue hidx)).1
        omega
    · rcases hx with ⟨rfl, _⟩ | ⟨rfl, _⟩ | rfl <;> simp at hj
  · intro idx hm
    rw [ht] at hm
    simp only [List.mem_append, List.mem_singleton] at hm
    rcases hm with (hm | hm) | hm
    · exact h2 idx hm
    · rcases ha with rfl | ⟨k, _, rfl⟩ <;> simp at hm
    · rcases hx with ⟨rfl, _⟩ | ⟨rfl, hd⟩ | rfl
      · simp at hm
      · simp only [Action.deny.injEq] at hm
        rw [hm]
        exact hd
      · simp at hm
  · intro hm
    rw [hi]
    rw [ht] at hm
    simp only [List.mem_append, List.mem_singleton] at hm
    rcases hm with (hm | hm) | hm
    · exact Nat.lt_succ_of_lt (h3 hm)
    · rcases ha with rfl | ⟨k, _, rfl⟩ <;> simp at hm
    · rcases hx with ⟨_, hn⟩ | ⟨rfl, _⟩ | rfl
      · exact Nat.lt_succ_of_le hn
      · simp at hm
      · simp at hm
  · rw [hg, ht, h4]
    simp only [List.count_append]
    have e1 : List.count Action.hookStart [a] = 0 := by
      rcases ha with rfl | ⟨k, _, rfl⟩ <;> simp
    have e2 : List.count Action.release [a] = 0 := by
      rcases ha with rfl | ⟨k, _, rfl⟩ <;> simp
    have e3 : List.count Action.hookStart [x] = 0 := by
      rcases hx with ⟨rfl, _⟩ | ⟨rfl, _⟩ | rfl <;> simp
    have e4 : List.count Action.release [x] = 0 := by
      rcases hx with ⟨rfl, _⟩ | ⟨rfl, _⟩ | rfl <;> simp
    rw [e1, e2, e3, e4]
    simp

theorem walk_release (c : Call) (s : State) (h : InvWalk c s) : InvWalk c (release c s) := by
  have h1 := walk_mark_release c s h
  unfold release
  simp only
  split
  · exact walk_next c _ Action.chainStart (Or.inl rfl) h1
  · exact h1

theorem walk_iterate_release (c : Call) (k : Nat) (s : State) (h : InvWalk c s) :
    InvWalk c ((release c)^[k] s) := by
  induction k generalizing s with
  | zero => exact h
  | succ k ih =>
    rw [Function.iterate_succ_apply]
    exact ih _ (walk_release c s h)

theorem walk_startHook (c : Call) (s : State) (resource : Resource) (h : InvWalk c s) :
    InvWalk c (startHook c s resource) := by
  unfold startHook
  cases resource.handleSession with
  | none => exact h
  | some k => exact walk_iterate_release c k _ (walk_mark_hook c s h)

theorem walk_foldl_startHook (c : Call) (l : List Resource) (s : State) (h : InvWalk c s) :
    InvWalk c (l.foldl (startHook c) s) := by
  induction l generalizing s with
  | nil => exact h
  | cons r rs ih => exact ih _ (walk_startHook c s r h)

theorem route_walk {router : Router} {req : Request} {c : Call} {s0 : State}
    (h : route router req = some (c, s0)) : InvWalk c s0 := by
  unfold route at h
  cases hm : matchResources router.resources req.url with
  | none => simp [hm] at h
  | some resources =>
    simp only [hm, Option.map_some', Option.some.injEq, Prod.mk.injEq] at h
    obtain ⟨hc, hs⟩ := h
    subst hc
    subst hs
    have hf := walk_foldl_startHook { env := router.env, req := req, resources := resources }
      router.resources (initialState req) (walk_initial _ req)
    split
    · exact walk_next _ _ Action.chainStart (Or.inl rfl) hf
    · exact hf

theorem walk_step (c : Call) (s : State) (e : Event) (h : InvWalk c s) :
    InvWalk c (step c s e) := by
  cases e with
  | release =>
    simp only [step]
    split
    · exact walk_release c s h
    · exact h
  | tick =>
    simp only [step]
    split
    · exact h
    · rename_i idx rest hq
      exact walk_tick c s idx rest _ hq h
  | callNext idx =>
    simp only [step]
    split
    · rename_i hidx
      exact walk_next c s (Action.continued idx) (Or.inr ⟨idx, hidx, rfl⟩) h
    · exact h

theorem walk_run (c : Call) (es : List Event) (s : State) (h : InvWalk c s) :
    InvWalk c (run c s es) := by
  induction es generalizing s with
  | nil => exact h
  | cons e es ih => exact ih _ (walk_step c s e h)

/-- With at most one chain start and no handler continuing twice, the walk is at most
one entry past any handler that has not called its continuation. -/
theorem stall {c : Call} {s : State} (h : InvWalk c s) (k : Nat)
    (hk : k ∉ continuations s) (hst : starts s ≤ 1) (hnd : (continuations s).Nodup) :
    s.i ≤ k + 1 := by
  by_contra hgt
  have hki : k < s.i - 1 := by omega
  have hsub : continuations s ⊆ (List.range (s.i - 1)).erase k := by
    intro j hj
    have hne : j ≠ k := fun e => hk (e ▸ hj)
    have := h.cont_lt j hj
    exact (List.mem_erase_of_ne hne).2 (List.mem_range.2 (by omega))
  have hlen := (List.subperm_of_subset hnd hsub).length_le
  rw [List.length_erase_of_mem (List.mem_range.2 hki), List.length_range] at hlen
  have := h.base.count_eq
  omega

theorem trace_le_nextResource (c : Call) (s : State) :
    s.trace <+: (nextResource c s).trace := by
  obtain ⟨x, ht, _⟩ := nextResource_trace c s
  rw [ht]
  exact List.prefix_append _ _

theorem trace_le_release (c : Call) (s : State) : s.trace <+: (release c s).trace := by
  unfold release
  simp only
  split
  · refine List.IsPrefix.trans ?_ (trace_le_nextResource c _)
    simp only [List.append_assoc]
    exact List.prefix_append _ _
  · exact List.prefix_append _ _

theorem trace_le_step (c : Call) (s : State) (e : Event) :
    s.trace <+: (step c s e).trace := by
  cases e with
  | release =>
    simp only [step]
    split
    · exact trace_le_release c s
    · exact List.prefix_refl _
  | tick =>
    simp only [step]
    split
    · exact List.prefix_refl _
    · exact List.prefix_append _ _
  | callNext idx =>
    simp only [step]
    split
    · exact List.IsPrefix.trans (List.prefix_append s.trace [Action.continued idx])
        (trace_le_nextResource c { s with trace := s.trace ++ [Action.continued idx] })
    · exact List.prefix_refl _

theorem trace_le_run (c : Call) (es : List Event) (s : State) :
    s.trace <+: (run c s es).trace := by
  induction es generalizing s with
  | nil => exact List.prefix_refl _
  | cons e es ih => exact List.IsPrefix.trans (trace_le_step c s e) (ih _)

theorem run_append (c : Call) (s : State) (es1 es2 : List Event) :
    run c s (es1 ++ es2) = run c (run c s es1) es2 := by
  simp only [run, List.foldl_append]

/-- The hypotheses of a well-behaved run hold at each of its moments. -/
theorem wellBehaved_prefix (c : Call) (s : State) (es1 es2 : List Event)
    (hstart : starts (run c s (es1 ++ es2)) ≤ 1)
    (hnd : (continuations (run c s (es1 ++ es2))).Nodup) :
    starts (run c s es1) ≤ 1 ∧ (continuations (run c s es1)).Nodup := by
  have hp : (run c s es1).trace <+: (run c s (es1 ++ es2)).trace := by
    rw [run_append]
    exact trace_le_run c es2 _
  constructor
  · exact Nat.le_trans (hp.count_le _) hstart
  · exact hnd.sublist (hp.filterMap _).sublist

theorem scheduled_sublist_visited (s : State) : List.Sublist (scheduled s) (visited s) := by
  simp only [scheduled, visited]
  induction s.trace with
  | nil => exact List.Sublist.refl _
  | cons a t ih =>
    cases a with
    | schedule idx =>
      simp only [List.filterMap_cons]
      exact ih.cons₂ _
    | deny idx =>
      simp only [List.filterMap_cons]
      exact ih.cons _
    | hookStart => simpa [List.filterMap_cons] using ih
    | release => simpa [List.filterMap_cons] using ih
    | chainStart => simpa [List.filterMap_cons] using ih
    | handle idx r => simpa [List.filterMap_cons] using ih
    | continued idx => simpa [List.filterMap_cons] using ih
    | notFound => simpa [List.filterMap_cons] using ih

theorem scheduled_sorted {c : Call} {s : State} (h : Inv c s) :
    (scheduled s).Sorted (· < ·) := by
  have hv : (visited s).Sorted (· < ·) := by
    rw [h.visited_eq]
    exact List.sorted_lt_range _
  exact List.Pairwise.sublist (scheduled_sublist_visited s) hv

theorem scheduled_mem_lt {c : Call} {s : State} (h : Inv c s) {j : Nat}
    (hj : j ∈ scheduled s) : j < s.i := by
  have hv := (scheduled_sublist_visited s).subset hj
  rw [h.visited_eq, List.mem_range] at hv
  exact lt_of_lt_of_le hv (Nat.min_le_left _ _)

/-! ## Continuation calls -/

/-- C13, as stated, fails. With the match set `[/a/b/c, /a/b, /a]`, none internal, the
handler of `/a/b/c` calls its continuation twice: the second call takes `i` from 2 to
3 and queues `/a`. With the single resource `/`, the second call ends the response a
second time. -/
theorem second_continuation_counterexample :
    route openRouter chainRequest = some (openCall, openQueued) ∧
      (run openCall openQueued [Event.tick, Event.callNext 0]).i = 2 ∧
      (run openCall openQueued [Event.tick, Event.callNext 0, Event.callNext 0]).i = 3 ∧
      (run openCall openQueued [Event.tick, Event.callNext 0, Event.callNext 0]).trace
        = [Action.chainStart, Action.schedule 0, Action.handle 0 none, Action.continued 0,
            Action.schedule 1, Action.continued 0, Action.schedule 2] ∧
      (run rootCall rootQueued [Event.tick, Event.callNext 0, Event.callNext 0]).res
        = { statusCode := 404, ended := ["Not Found", "Not Found"] } := by
  decide

/-- C13, amended. Every call of the continuation by a handler that has been invoked,
the first as well as any later one, is a call of `nextResource`: it takes the next
entry of the match set, and either queues that entry's handler, or answers 401, or,
past the end of the match set, answers 404. -/
theorem continuation_always_advances (c : Call) (s : State) (idx : Nat)
    (h : idx ∈ handled s) :
    step c s (Event.callNext idx)
        = nextResource c { s with trace := s.trace ++ [Action.continued idx] } ∧
      (step c s (Event.callNext idx)).i = s.i + 1 ∧
      continuations (step c s (Event.callNext idx)) = continuations s ++ [idx] ∧
      ((c.resources.length ≤ s.i ∧
          (step c s (Event.callNext idx)).queue = s.queue ∧
          (step c s (Event.callNext idx)).res
            = { statusCode := 404, ended := s.res.ended ++ ["Not Found"] }) ∨
        (s.i < c.resources.length ∧ denied c s.i = true ∧
          (step c s (Event.callNext idx)).queue = s.queue ∧
          (step c s (Event.callNext idx)).res
            = { statusCode := 401, ended := s.res.ended ++ ["Not Allowed"] }) ∨
        (s.i < c.resources.length ∧ denied c s.i = false ∧
          (step c s (Event.callNext idx)).queue = s.queue ++ [s.i] ∧
          (step c s (Event.callNext idx)).res = s.res)) := by
  have hstep : step c s (Event.callNext idx)
      = nextResource c { s with trace := s.trace ++ [Action.continued idx] } := by
    simp only [step, h, if_true]
  obtain ⟨hi, hcase⟩ := nextResource_cases c { s with trace := s.trace ++ [Action.continued idx] }
  obtain ⟨x, ht, hx⟩ :=
    nextResource_trace c { s with trace := s.trace ++ [Action.continued idx] }
  simp only at hi hcase ht hx
  rw [hstep]
  refine ⟨rfl, hi, ?_, ?_⟩
  · simp only [continuations, ht, List.filterMap_append]
    rcases hx with ⟨rfl, _⟩ | ⟨rfl, _⟩ | rfl <;> simp
  · rcases hcase with ⟨hn, hq, _, hr⟩ | ⟨hn, hd, hq, _, hr⟩ | ⟨hn, hd, hq, _, hr⟩
    · exact Or.inl ⟨hn, hq, hr⟩
    · exact Or.inr (Or.inl ⟨hn, hd, hq, hr⟩)
    · exact Or.inr (Or.inr ⟨hn, hd, hq, hr⟩)

/-- C13 amended, at the second continuation call of the handler of `/a/b/c`. -/
theorem continuation_always_advances_witness :
    0 ∈ continuations (run openCall openQueued [Event.tick, Event.callNext 0]) ∧
      (step openCall (run openCall openQueued [Event.tick, Event.callNext 0])
        (Event.callNext 0)).i
        = (run openCall openQueued [Event.tick, Event.callNext 0]).i + 1 :=
  ⟨by decide,
    (continuation_always_advances openCall
      (run openCall openQueued [Event.tick, Event.callNext 0]) 0 (by decide)).2.1⟩

/-- C14, as stated, fails. The chain walk is started once and the handler of `/a/b`,
the second entry, is invoked and never calls its continuation; the handler of
`/a/b/c` has called its own twice, so `/a`, later in the match set, is invoked, and
when it continues the router answers 404. -/
theorem stalled_handler_counterexample :
    route openRouter chainRequest = some (openCall, openQueued) ∧
      (run openCall openQueued
          [Event.tick, Event.callNext 0, Event.callNext 0, Event.tick, Event.tick,
            Event.callNext 2]).trace
        = [Action.chainStart, Action.schedule 0, Action.handle 0 none, Action.continued 0,
            Action.schedule 1, Action.continued 0, Action.schedule 2, Action.handle 1 none,
            Action.handle 2 none, Action.continued 2, Action.notFound] ∧
      (run openCall openQueued
          [Event.tick, Event.callNext 0, Event.callNext 0, Event.tick, Event.tick,
            Event.callNext 2]).res
        = { statusCode := 404, ended := ["Not Found"] } := by
  decide

/-- C14, amended. When the chain walk has been started once, no handler has called its
continuation more than once, and the handler of entry `k` has been invoked and has not
called its continuation: the walk stands right behind `k`, nothing later in the match
set is queued or invoked, and the router has written neither 401 nor 404: it has not
touched the status nor ended the response. -/
theorem stalled_handler (router : Router) (req : Request) (c : Call) (s0 : State)
    (hroute : route router req = some (c, s0)) (es : List Event) (k : Nat)
    (hstart : starts (run c s0 es) = 1)
    (hnd : (continuations (run c s0 es)).Nodup)
    (hk : k ∈ handled (run c s0 es)) (hstall : k ∉ continuations (run c s0 es)) :
    (run c s0 es).i = k + 1 ∧
      (∀ j ∈ handled (run c s0 es) ++ (run c s0 es).queue, j ≤ k) ∧
      (∀ idx, Action.deny idx ∉ (run c s0 es).trace) ∧
      Action.notFound ∉ (run c s0 es).trace ∧
      (run c s0 es).res = { statusCode := 200, ended := [] } := by
  have hw := walk_run c es s0 (route_walk hroute)
  have hb := hw.base
  have hle := stall hw k hstall (Nat.le_of_eq hstart) hnd
  obtain ⟨hki, hkn, hkd⟩ := scheduled_lt hb (List.mem_append_left _ hk)
  have hi : (run c s0 es).i = k + 1 := by omega
  have hall : ∀ j, j ≤ k → denied c j = false := by
    intro j hj
    rcases Nat.lt_or_eq_of_le hj with hlt | rfl
    · have hjc : j ∈ continuations (run c s0 es) := by
        by_contra hn
        have := stall hw j hn (Nat.le_of_eq hstart) hnd
        omega
      exact (scheduled_lt hb (List.mem_append_left _ (hb.cont_handled j hjc))).2.2
    · exact hkd
  have hnodeny : ∀ idx, Action.deny idx ∉ (run c s0 es).trace := by
    intro idx hd
    have hden := hw.deny_denied idx hd
    have hv : idx ∈ visited (run c s0 es) := by
      simp only [visited, List.mem_filterMap]
      exact ⟨_, hd, rfl⟩
    rw [hb.visited_eq, List.mem_range] at hv
    have hlt : idx < (run c s0 es).i := lt_of_lt_of_le hv (Nat.min_le_left _ _)
    have := hall idx (by omega)
    rw [hden] at this
    exact absurd this (by decide)
  refine ⟨hi, ?_, hnodeny, ?_, ?_⟩
  · intro j hj
    have := (scheduled_lt hb hj).1
    omega
  · intro hnf
    have := hw.notFound_gt hnf
    omega
  · rw [hb.res_eq hnodeny, if_pos (by omega)]

/-- C14 amended, at scenario A with a third resource: the handler of `/a/b`, the second
entry, is invoked and does not continue; `/a` is never queued. -/
theorem stalled_handler_witness :
    (∀ j ∈ handled (run openCall openQueued [Event.tick, Event.callNext 0, Event.tick])
        ++ (run openCall openQueued [Event.tick, Event.callNext 0, Event.tick]).queue,
        j ≤ 1) ∧
      (run openCall openQueued [Event.tick, Event.callNext 0, Event.tick]).res
        = { statusCode := 200, ended := [] } :=
  have h := stalled_handler openRouter chainRequest openCall openQueued (by decide)
    [Event.tick, Event.callNext 0, Event.tick] 1 (by decide) (by decide) (by decide)
    (by decide)
  ⟨h.2.1, h.2.2.2.2⟩

/-- C17. At every moment of a route call in which the chain walk is started once and
no handler calls its continuation more than once: the entries handled and queued so
far are in the order of the match set, each once, handled in the order they were
queued; an entry is queued only when the handler of the entry before it has been
invoked and has called its continuation; and the entries queued are at most one more
than the continuation calls. -/
theorem chain_in_order (router : Router) (req : Request) (c : Call) (s0 : State)
    (hroute : route router req = some (c, s0)) (es1 es2 : List Event)
    (hstart : starts (run c s0 (es1 ++ es2)) = 1)
    (hnd : (continuations (run c s0 (es1 ++ es2))).Nodup) :
    (handled (run c s0 es1) ++ (run c s0 es1).queue).Sorted (· < ·) ∧
      handled (run c s0 es1) ++ (run c s0 es1).queue = scheduled (run c s0 es1) ∧
      (∀ k, k + 1 ∈ scheduled (run c s0 es1) →
        k ∈ handled (run c s0 es1) ∧ k ∈ continuations (run c s0 es1)) ∧
      (scheduled (run c s0 es1)).length ≤ (continuations (run c s0 es1)).length + 1 := by
  have hw := walk_run c es1 s0 (route_walk hroute)
  have hb := hw.base
  obtain ⟨hst, hnd1⟩ := wellBehaved_prefix c s0 es1 es2 (Nat.le_of_eq hstart) hnd
  refine ⟨?_, hb.queue_eq, ?_, ?_⟩
  · rw [hb.queue_eq]
    exact scheduled_sorted hb
  · intro k hk
    have hlt := scheduled_mem_lt hb hk
    have hkc : k ∈ continuations (run c s0 es1) := by
      by_contra hn
      have := stall hw k hn hst hnd1
      omega
    exact ⟨hb.cont_handled k hkc, hkc⟩
  · have hlen := (scheduled_sublist_visited (run c s0 es1)).length_le
    rw [hb.visited_eq, List.length_range] at hlen
    have := hb.count_eq
    have := Nat.min_le_left (run c s0 es1).i c.resources.length
    omega

/-- C17 at the match set `[/a/b/c, /a/b, /a]`, after the first handler has continued
and the second has been invoked, in a run in which the second then continues. -/
theorem chain_in_order_witness :
    handled (run openCall openQueued [Event.tick, Event.callNext 0, Event.tick]) = [0, 1] ∧
      (handled (run openCall openQueued [Event.tick, Event.callNext 0, Event.tick])
        ++ (run openCall openQueued [Event.tick, Event.callNext 0, Event.tick]).queue).Sorted
        (· < ·) ∧
      (∀ k, k + 1 ∈ scheduled (run openCall openQueued
          [Event.tick, Event.callNext 0, Event.tick]) →
        k ∈ handled (run openCall openQueued [Event.tick, Event.callNext 0, Event.tick]) ∧
          k ∈ continuations (run openCall openQueued
            [Event.tick, Event.callNext 0, Event.tick])) :=
  have h := chain_in_order openRouter chainRequest openCall openQueued (by decide)
    [Event.tick, Event.callNext 0, Event.tick] [Event.callNext 1] (by decide) (by decide)
  ⟨by decide, h.1, h.2.2.1⟩

/-! ## The barrier counter -/

/-- C18, as stated, fails. One hook is started and calls its release function twice
after `route` has returned: the first call takes `globals` from 1 to 0 and starts the
chain walk, the second takes it to -1. -/
theorem globals_negative_counterexample :
    route deferredHook requestA = some (deferredCall, deferredWaiting) ∧
      (run deferredCall deferredWaiting [Event.release]).globals = 0 ∧
      (run deferredCall deferredWaiting [Event.release, Event.release]).globals = -1 ∧
      (run deferredCall deferredWaiting [Event.release, Event.release]).trace
        = [Action.hookStart, Action.release, Action.chainStart, Action.schedule 0,
            Action.release] := by
  decide

/-- C18, amended. At every moment of a route call `globals` is the number of hooks
started less the number of release calls, so it is not negative as long as no more
release calls have been made than hooks were started; and every release call
decrements it by one, also when it is zero. -/
theorem globals_counts (router : Router) (req : Request) (c : Call) (s0 : State)
    (hroute : route router req = some (c, s0)) (es : List Event) :
    (run c s0 es).globals
        = ((run c s0 es).trace.count Action.hookStart : Int)
          - ((run c s0 es).trace.count Action.release : Int) ∧
      ((run c s0 es).trace.count Action.release
          ≤ (run c s0 es).trace.count Action.hookStart →
        0 ≤ (run c s0 es).globals) ∧
      (Action.hookStart ∈ (run c s0 es).trace →
        (step c (run c s0 es) Event.release).globals = (run c s0 es).globals - 1) := by
  have hw := walk_run c es s0 (route_walk hroute)
  refine ⟨hw.globals_eq, ?_, ?_⟩
  · intro hle
    rw [hw.globals_eq]
    omega
  · intro hm
    simp only [step, hm, if_true, release]
    split
    · rw [nextResource_globals]
    · rfl

/-- C18 amended, at one hook released once. -/
theorem globals_counts_witness :
    route deferredHook requestA = some (deferredCall, deferredWaiting) ∧
      0 ≤ (run deferredCall deferredWaiting [Event.release]).globals ∧
      (step deferredCall (run deferredCall deferredWaiting [Event.release])
        Event.release).globals
        = (run deferredCall deferredWaiting [Event.release]).globals - 1 :=
  have h := globals_counts deferredHook requestA deferredCall deferredWaiting (by decide)
    [Event.release]
  ⟨by decide, h.2.1 (by decide), h.2.2 (by decide)⟩

/-! ## The session seen by the handlers -/

theorem nextResource_session_const {β : Type} (c : Call) (s : State) (v : β) :
    (nextResource c s).session.map (fun _ => v) = s.session.map (fun _ => v) := by
  cases hres : c.resources[s.i]? with
  | none => simp [nextResource, hres]
  | some resource =>
    by_cases hp : (resource.internal || hasHeader c.req "x-dssh-key") = true
    · by_cases he : c.env = "development" <;>
        cases hs : s.session <;> simp [nextResource, hres, hp, he, contextSession, hs]
    · have hp' : (resource.internal || hasHeader c.req "x-dssh-key") = false := by
        simpa using hp
      cases hs : s.session <;> simp [nextResource, hres, hp', contextSession, hs]

/-- A call of `nextResource` either queues nothing, or queues the entry `i` and leaves
in `isRoot` whether that entry requires privilege. -/
theorem nextResource_queue_session (c : Call) (s : State) :
    (nextResource c s).queue = s.queue ∨
      ((nextResource c s).queue = s.queue ++ [s.i] ∧
        (nextResource c s).session.map (fun x => x.isRoot)
          = s.session.map fun _ => privileged c s.i) := by
  cases hres : c.resources[s.i]? with
  | none => exact Or.inl (by simp [nextResource, hres])
  | some resource =>
    by_cases hp : (resource.internal || hasHeader c.req "x-dssh-key") = true
    · by_cases he : c.env = "development"
      · refine Or.inr ⟨by simp [nextResource, hres, hp, he], ?_⟩
        cases hs : s.session <;>
          simp [nextResource, privileged, hres, hp, he, contextSession, hs]
      · exact Or.inl (by simp [nextResource, hres, hp, he])
    · have hp' : (resource.internal || hasHeader c.req "x-dssh-key") = false := by
        simpa using hp
      refine Or.inr ⟨by simp [nextResource, hres, hp'], ?_⟩
      cases hs : s.session <;>
        simp [nextResource, privileged, hres, hp', contextSession, hs]

theorem root_initial (c : Call) (req : Request) : InvRoot c (initialState req) := by
  refine ⟨walk_initial c req, ?_, ?_⟩ <;> simp [initialState]

theorem root_mark (c : Call) (s : State) (g : Int) (a : Action)
    (ha : a = Action.release ∨ a = Action.hookStart)
    (hw : InvWalk c { s with globals := g, trace := s.trace ++ [a] }) (h : InvRoot c s) :
    InvRoot c { s with globals := g, trace := s.trace ++ [a] } := by
  obtain ⟨_, h1, h2⟩ := h
  have es : starts { s with globals := g, trace := s.trace ++ [a] } = starts s := by
    rcases ha with rfl | rfl <;> simp [starts, List.count_append]
  have ec : continuations { s with globals := g, trace := s.trace ++ [a] }
      = continuations s := by
    rcases ha with rfl | rfl <;> simp [continuations, List.filterMap_append]
  refine ⟨hw, ?_, ?_⟩
  · intro hst hnd idx r hm
    rw [es] at hst
    rw [ec] at hnd
    refine h1 hst hnd idx r ?_
    rcases ha with rfl | rfl <;> simpa using hm
  · intro hst hnd idx hm
    rw [es] at hst
    rw [ec] at hnd
    exact h2 hst hnd idx hm

theorem root_tick (c : Call) (s : State) (idx : Nat) (rest : List Nat)
    (hq : s.queue = idx :: rest) (h : InvRoot c s) :
    InvRoot c { s with
      queue := rest
      trace := s.trace ++ [Action.handle idx ((contextSession s).map fun x => x.isRoot)] } := by
  obtain ⟨hw, h1, h2⟩ := h
  have es : starts { s with
      queue := rest
      trace := s.trace ++ [Action.handle idx ((contextSession s).map fun x => x.isRoot)] }
      = starts s := by
    simp [starts, List.count_append]
  have ec : continuations { s with
      queue := rest
      trace := s.trace ++ [Action.handle idx ((contextSession s).map fun x => x.isRoot)] }
      = continuations s := by
    simp [continuations, List.filterMap_append]
  refine ⟨walk_tick c s idx rest _ hq hw, ?_, ?_⟩
  · intro hst hnd j r hm
    rw [es] at hst
    rw [ec] at hnd
    simp only [List.mem_append, List.mem_singleton, Action.handle.injEq] at hm
    rcases hm with hm | ⟨rfl, rfl⟩
    · exact h1 hst hnd j r hm
    · exact h2 hst hnd j (by rw [hq]; exact List.mem_cons_self _ _)
  · intro hst hnd j hm
    rw [es] at hst
    rw [ec] at hnd
    exact h2 hst hnd j (by rw [hq]; exact List.mem_cons_of_mem _ hm)

/-- In a run with at most one chain start and no repeated continuation call,
`nextResource` is only called when no queued callback is waiting. -/
theorem queue_empty_before_next (c : Call) (s : State) (a : Action)
    (ha : a = Action.chainStart ∨ ∃ idx ∈ handled s, a = Action.continued idx)
    (h : Inv c s)
    (hst : starts (nextResource c { s with trace := s.trace ++ [a] }) ≤ 1)
    (hnd : (continuations (nextResource c { s with trace := s.trace ++ [a] })).Nodup) :
    s.queue = [] := by
  have hb := inv_next c s a ha h
  obtain ⟨hi, _⟩ := nextResource_cases c { s with trace := s.trace ++ [a] }
  obtain ⟨x, ht, hx⟩ := nextResource_trace c { s with trace := s.trace ++ [a] }
  simp only at hi ht hx
  have hhan : handled (nextResource c { s with trace := s.trace ++ [a] }) = handled s := by
    simp only [handled, ht, List.filterMap_append]
    have e1 : ([a].filterMap fun a => match a with
        | .handle idx _ => some idx
        | _ => none) = [] := by
      rcases ha with rfl | ⟨k, _, rfl⟩ <;> simp
    have e2 : ([x].filterMap fun a => match a with
        | .handle idx _ => some idx
        | _ => none) = [] := by
      rcases hx with ⟨rfl, _⟩ | ⟨rfl, _⟩ | rfl <;> simp
    rw [e1, e2, List.append_nil, List.append_nil]
  have hsub : continuations (nextResource c { s with trace := s.trace ++ [a] })
      ⊆ handled s := by
    intro j hj
    rw [← hhan]
    exact hb.cont_handled j hj
  have hlen := (List.subperm_of_subset hnd hsub).length_le
  have hq := congrArg List.length h.queue_eq
  rw [List.length_append] at hq
  have hsv := (scheduled_sublist_visited s).length_le
  rw [h.visited_eq, List.length_range] at hsv
  have hmin := Nat.min_le_left s.i c.resources.length
  have hcount := hb.count_eq
  rw [hi] at hcount
  exact List.length_eq_zero.1 (by omega)

theorem root_next (c : Call) (s : State) (a : Action)
    (ha : a = Action.chainStart ∨ ∃ idx ∈ handled s, a = Action.continued idx)
    (h : InvRoot c s) :
    InvRoot c (nextResource c { s with trace := s.trace ++ [a] }) := by
  obtain ⟨hw, h1, _⟩ := h
  obtain ⟨x, ht, hx⟩ := nextResource_trace c { s with trace := s.trace ++ [a] }
  simp only at ht hx
  have hmono : starts (nextResource c { s with trace := s.trace ++ [a] }) ≤ 1 →
      (continuations (nextResource c { s with trace := s.trace ++ [a] })).Nodup →
      starts s ≤ 1 ∧ (continuations s).Nodup := by
    intro hst hnd
    have hp : s.trace <+: (nextResource c { s with trace := s.trace ++ [a] }).trace := by
      rw [ht, List.append_assoc]
      exact List.prefix_append _ _
    exact ⟨Nat.le_trans (hp.count_le _) hst, hnd.sublist (hp.filterMap _).sublist⟩
  refine ⟨walk_next c s a ha hw, ?_, ?_⟩
  · intro hst hnd idx r hm
    obtain ⟨hst0, hnd0⟩ := hmono hst hnd
    have hm0 : Action.handle idx r ∈ s.trace := by
      rw [ht] at hm
      simp only [List.mem_append, List.mem_singleton] at hm
      rcases hm with (hm | hm) | hm
      · exact hm
      · rcases ha with rfl | ⟨k, _, rfl⟩ <;> simp at hm
      · rcases hx with ⟨rfl, _⟩ | ⟨rfl, _⟩ | rfl <;> simp at hm
    rw [nextResource_session_const c { s with trace := s.trace ++ [a] } (privileged c idx)]
    exact h1 hst0 hnd0 idx r hm0
  · intro hst hnd idx hm
    have hempty := queue_empty_before_next c s a ha hw.base hst hnd
    rcases nextResource_queue_session c { s with trace := s.trace ++ [a] } with hq | ⟨hq, hs⟩
    · rw [hq] at hm
      simp only at hm
      rw [hempty] at hm
      simp at hm
    · rw [hq] at hm
      simp only at hm hs
      rw [hempty] at hm
      simp only [List.nil_append, List.mem_singleton] at hm
      rw [hm, nextResource_session_const c { s with trace := s.trace ++ [a] }
        (privileged c s.i)]
      exact hs

theorem root_release (c : Call) (s : State) (h : InvRoot c s) : InvRoot c (release c s) := by
  have h1 := root_mark c s (s.globals - 1) Action.release (Or.inl rfl)
    (walk_mark_release c s h.walk) h
  unfold release
  simp only
  split
  · exact root_next c _ Action.chainStart (Or.inl rfl) h1
  · exact h1

theorem root_iterate_release (c : Call) (k : Nat) (s : State) (h : InvRoot c s) :
    InvRoot c ((release c)^[k] s) := by
  induction k generalizing s with
  | zero => exact h
  | succ k ih =>
    rw [Function.iterate_succ_apply]
    exact ih _ (root_release c s h)

theorem root_startHook (c : Call) (s : State) (resource : Resource) (h : InvRoot c s) :
    InvRoot c (startHook c s resource) := by
  unfold startHook
  cases resource.handleSession with
  | none => exact h
  | some k =>
    exact root_iterate_release c k _
      (root_mark c s (s.globals + 1) Action.hookStart (Or.inr rfl)
        (walk_mark_hook c s h.walk) h)

theorem root_foldl_startHook (c : Call) (l : List Resource) (s : State) (h : InvRoot c s) :
    InvRoot c (l.foldl (startHook c) s) := by
  induction l generalizing s with
  | nil => exact h
  | cons r rs ih => exact ih _ (root_startHook c s r h)

theorem route_root {router : Router} {req : Request} {c : Call} {s0 : State}
    (h : route router req = some (c, s0)) : InvRoot c s0 := by
  unfold route at h
  cases hm : matchResources router.resources req.url with
  | none => simp [hm] at h
  | some resources =>
    simp only [hm, Option.map_some', Option.some.injEq, Prod.mk.injEq] at h
    obtain ⟨hc, hs⟩ := h
    subst hc
    subst hs
    have hf := root_foldl_startHook { env := router.env, req := req, resources := resources }
      router.resources (initialState req) (root_initial _ req)
    split
    · exact root_next _ _ Action.chainStart (Or.inl rfl) hf
    · exact hf

theorem root_step (c : Call) (s : State) (e : Event) (h : InvRoot c s) :
    InvRoot c (step c s e) := by
  cases e with
  | release =>
    simp only [step]
    split
    · exact root_release c s h
    · exact h
  | tick =>
    simp only [step]
    split
    · exact h
    · rename_i idx rest hq
      exact root_tick c s idx rest hq h
  | callNext idx =>
    simp only [step]
    split
    · rename_i hidx
      exact root_next c s (Action.continued idx) (Or.inr ⟨idx, hidx, rfl⟩) h
    · exact h

theorem root_run (c : Call) (es : List Event) (s : State) (h : InvRoot c s) :
    InvRoot c (run c s es) := by
  induction es generalizing s with
  | nil => exact h
  | cons e es ih => exact ih _ (root_step c s e h)

/-- C8, as stated, fails. In `development` the match set for `/a/b/c` is
`[/a/b/c, /a/b, /a]` with `/a/b` internal, and the request has a session. The handler
of `/a/b/c` calls its continuation twice before the queued callbacks run: the first
call sets `isRoot = true` and queues `/a/b`, the second resets `isRoot = false` for
`/a` and queues it, so the `handle` of the internal `/a/b` is invoked with
`isRoot = false`. -/
theorem development_root_counterexample :
    route devChainRouter sessionRequest = some (devChainCall, devChainQueued) ∧
      devChainCall.resources.map (fun r => r.internal) = [false, true, false] ∧
      (run devChainCall devChainQueued
          [Event.tick, Event.callNext 0, Event.callNext 0, Event.tick]).trace
        = [Action.chainStart, Action.schedule 0, Action.handle 0 (some false),
            Action.continued 0, Action.schedule 1, Action.continued 0, Action.schedule 2,
            Action.handle 1 (some false)] := by
  decide

/-- C8, amended. For a route call in `development` mode and an entry `idx` of the
match set that is internal, or reached by a request that carries the header
`x-dssh-key` with any value: the call of `nextResource` that reaches the entry writes
nothing to the response, sets `isRoot = true` on a present session and queues the call
of the entry's `handle`; no entry is ever answered 401; once the walk has reached the
entry its handler is queued or has been invoked; and when the chain walk is started at
most once and no handler calls its continuation more than once, `handle` is invoked
with `isRoot = true`. -/
theorem development_elevates (router : Router) (req : Request) (c : Call) (s0 : State)
    (hroute : route router req = some (c, s0)) (hdev : router.env = "development")
    (idx : Nat) (resource : Resource) (hr : c.resources[idx]? = some resource)
    (hp : resource.internal = true ∨
      ∃ hs value, req.headers = some hs ∧ ("x-dssh-key", value) ∈ hs)
    (es : List Event) :
    (∀ s : State, s.i = idx →
        (nextResource c s).res = s.res ∧
          (nextResource c s).trace = s.trace ++ [Action.schedule idx] ∧
          contextSession (nextResource c s) = s.session.map (fun _ => { isRoot := true }) ∧
          (nextResource c s).queue = s.queue ++ [idx]) ∧
      (∀ j, Action.deny j ∉ (run c s0 es).trace) ∧
      (idx < (run c s0 es).i → idx ∈ handled (run c s0 es) ++ (run c s0 es).queue) ∧
      (starts (run c s0 es) ≤ 1 → (continuations (run c s0 es)).Nodup →
        ∀ r, Action.handle idx r ∈ (run c s0 es).trace →
          r = (run c s0 es).session.map fun _ => true) := by
  obtain ⟨hcenv, hcreq, _, _⟩ := route_spec hroute
  have hroot := root_run c es s0 (route_root hroute)
  have hb := hroot.walk.base
  have hlen : idx < c.resources.length := (List.getElem?_eq_some.1 hr).1
  have henv : c.env = "development" := by rw [hcenv, hdev]
  have hp' : (resource.internal || hasHeader c.req "x-dssh-key") = true := by
    rcases hp with h | ⟨hs, value, hh, hk⟩
    · simp [h]
    · have : hasHeader c.req "x-dssh-key" = true := by
        simp only [hasHeader, hcreq, hh]
        exact List.any_eq_true.2 ⟨_, hk, by simp⟩
      simp [this]
  have hpriv : privileged c idx = true := by
    simp only [privileged, hr, hp']
  have hnodeny : ∀ j, Action.deny j ∉ (run c s0 es).trace := by
    intro j hd
    have := hroot.walk.deny_denied j hd
    simp only [denied] at this
    split at this
    · simp [henv] at this
    · exact absurd this (by decide)
  refine ⟨?_, hnodeny, ?_, ?_⟩
  · intro s hs
    subst hs
    refine ⟨by simp [nextResource, hr, hp', henv], by simp [nextResource, hr, hp', henv],
      ?_, by simp [nextResource, hr, hp', henv]⟩
    cases h : s.session <;> simp [nextResource, hr, hp', henv, contextSession, h]
  · intro hlt
    have hv : idx ∈ visited (run c s0 es) := by
      rw [hb.visited_eq, List.mem_range]
      exact lt_min hlt hlen
    rw [hb.queue_eq]
    simp only [visited, List.mem_filterMap] at hv
    obtain ⟨a, ha, hja⟩ := hv
    cases a with
    | schedule k =>
      simp only [Option.some.injEq] at hja
      subst hja
      simp only [scheduled, List.mem_filterMap]
      exact ⟨_, ha, rfl⟩
    | deny k => exact absurd ha (hnodeny k)
    | hookStart => simp at hja
    | release => simp at hja
    | chainStart => simp at hja
    | handle k r => simp at hja
    | continued k => simp at hja
    | notFound => simp at hja
  · intro hst hnd r hm
    have := hroot.handled_root hst hnd idx r hm
    rw [hpriv] at this
    exact this

/-- C8 amended, at scenario D (the internal `/admin`, a session that is not root) and
at the request `/foo` with the header `x-dssh-key: k`, both in `development`: the
handler is invoked with `isRoot = true`. -/
theorem development_elevates_witness :
    (route (adminRouter "development") (adminRequest (some { isRoot := false }))
        = some (adminCall "development" (some { isRoot := false }), elevatedQueued) ∧
      Action.handle 0 (some true) ∈
        (run (adminCall "development" (some { isRoot := false })) elevatedQueued
          [Event.tick]).trace ∧
      ∀ r, Action.handle 0 r ∈
          (run (adminCall "development" (some { isRoot := false })) elevatedQueued
            [Event.tick]).trace → r = some true) ∧
    (route keyDevRouter keyRequest = some (keyDevCall, elevatedQueued) ∧
      Action.handle 0 (some true) ∈ (run keyDevCall elevatedQueued [Event.tick]).trace ∧
      ∀ r, Action.handle 0 r ∈ (run keyDevCall elevatedQueued [Event.tick]).trace →
        r = some true) :=
  ⟨⟨by decide, by decide,
      fun r hm =>
        ((development_elevates (adminRouter "development")
          (adminRequest (some { isRoot := false }))
          (adminCall "development" (some { isRoot := false })) elevatedQueued
          (by decide) rfl 0 adminResource (by decide) (Or.inl rfl) [Event.tick]).2.2.2
          (by decide) (by decide) r hm).trans (by decide)⟩,
    ⟨by decide, by decide,
      fun r hm =>
        ((development_elevates keyDevRouter keyRequest keyDevCall elevatedQueued
          (by decide) rfl 0 fooResource (by decide)
          (Or.inr ⟨[("x-dssh-key", "k")], "k", rfl, by decide⟩) [Event.tick]).2.2.2
          (by decide) (by decide) r hm).trans (by decide)⟩⟩

end Deployd
